import Mathlib

/-!
Verification of the radix-2 FFT routine `FourierTransLL` (gosl, package `fun`,
file `fourier.go`) together with its helpers `IsPowerOfTwo` and `Swap`.

The interleaved real/imaginary array `data []float64` is modelled as a
`List ℝ`; machine floating point is idealised as exact real arithmetic, and
`math.Sin` / `math.Pi` become `Real.sin` / `Real.pi`.  Each Go loop becomes a
fold over the explicit list of loop-counter values (or, for the stage loop,
fuel-indexed recursion; the fuel passed by `FourierTransLL` is shown to be
sufficient).  Out-of-range reads are modelled by `List.getD` with default 0;
they never occur for validated inputs.
-/

namespace GoslFun

/-- Array read `data[i]` (default 0 out of range; in-range everywhere below). -/
def val (d : List ℝ) (i : ℕ) : ℝ := d.getD i 0

/-- `Swap` from fourier.go: exchanges `data[a]` and `data[b]` (the Go source
passes the two element pointers). -/
def Swap (d : List ℝ) (a b : ℕ) : List ℝ :=
  (d.set a (val d b)).set b (val d a)

/-- The carry update of the bit-reversal section:
`m = n; for m >= 2 && j > m { j -= m; m >>= 1 }; j += m`. -/
def carryUpdate (j m : ℕ) : ℕ :=
  if 2 ≤ m ∧ m < j then carryUpdate (j - m) (m / 2) else j + m
termination_by m
decreasing_by exact Nat.div_lt_self (by omega) (by omega)

/-- One iteration of the bit-reversal loop body at odd index `i`
(state: the array and the running index `j`). -/
def bitrevStep (n : ℕ) (s : List ℝ × ℕ) (i : ℕ) : List ℝ × ℕ :=
  let d := s.1
  let j := s.2
  let d' := if i < j then Swap (Swap d (j - 1) (i - 1)) j i else d
  (d', carryUpdate j n)

/-- The bit-reversal section of `FourierTransLL`:
`j := 1; for i := 1; i < nn; i += 2 { ... }` with `nn = 2*n`. -/
def bitrevSection (n : ℕ) (d : List ℝ) : List ℝ :=
  ((List.range' 1 n 2).foldl (bitrevStep n) (d, 1)).1

/-- The Danielson-Lanczos butterfly body at index `i` (with `j = i + mmax`):
```
tempr = wr*data[j-1] - wi*data[j]
tempi = wr*data[j]   + wi*data[j-1]
data[j-1] = data[i-1] - tempr
data[j]   = data[i]   - tempi
data[i-1] += tempr
data[i]   += tempi
``` -/
def butterfly (wr wi : ℝ) (mmax i : ℕ) (d : List ℝ) : List ℝ :=
  let j := i + mmax
  let tempr := wr * val d (j - 1) - wi * val d j
  let tempi := wr * val d j + wi * val d (j - 1)
  let d1 := d.set (j - 1) (val d (i - 1) - tempr)
  let d2 := d1.set j (val d1 i - tempi)
  let d3 := d2.set (i - 1) (val d2 (i - 1) + tempr)
  d3.set i (val d3 i + tempi)

/-- The values taken by the innermost counter `for i := m; i <= nn; i += istep`. -/
def iIndices (m istep nn : ℕ) : List ℕ :=
  if m ≤ nn then List.range' m ((nn - m) / istep + 1) istep else []

/-- The innermost loop of the Danielson-Lanczos section for a fixed odd `m`. -/
def innerLoop (wr wi : ℝ) (mmax istep nn m : ℕ) (d : List ℝ) : List ℝ :=
  (iIndices m istep nn).foldl (fun e i => butterfly wr wi mmax i e) d

/-- Body of the middle loop `for m = 1; m < mmax; m += 2`: run the inner loop
with the current rotation `(wr, wi)`, then advance the trigonometric
recurrence (`wtemp = wr; wr = wr*wpr - wi*wpi + wr; wi = wi*wpr + wtemp*wpi + wi`). -/
def mStep (wpr wpi : ℝ) (mmax istep nn : ℕ) (s : List ℝ × ℝ × ℝ) (_m : ℕ) :
    List ℝ × ℝ × ℝ :=
  let d := s.1
  let wr := s.2.1
  let wi := s.2.2
  (innerLoop wr wi mmax istep nn _m d, wr * wpr - wi * wpi + wr, wi * wpr + wr * wpi + wi)

/-- `isign`: `-1` for the direct transform, `+1` when `inverse` is set. -/
def isignOf (inverse : Bool) : ℝ := if inverse then 1 else -1

/-- `theta = isign * (2.0 * math.Pi / float64(mmax))`. -/
noncomputable def thetaOf (isign : ℝ) (mmax : ℕ) : ℝ := isign * (2 * Real.pi / mmax)

/-- One stage of the Danielson-Lanczos section (fixed `mmax`): seed the
trigonometric recurrence and run the two nested inner loops. -/
noncomputable def stage (isign : ℝ) (nn mmax : ℕ) (d : List ℝ) : List ℝ :=
  let istep := 2 * mmax
  let theta := thetaOf isign mmax
  let wtemp := Real.sin (0.5 * theta)
  let wpr := -2 * wtemp * wtemp
  let wpi := Real.sin theta
  ((List.range' 1 (mmax / 2) 2).foldl (mStep wpr wpi mmax istep nn) (d, 1, 0)).1

/-- The outer stage loop `for nn > mmax { ...; mmax = istep }`, written with a
fuel parameter (`FourierTransLL` passes fuel `nn`, proved sufficient below). -/
noncomputable def dlRun (isign : ℝ) (nn : ℕ) : ℕ → ℕ → List ℝ → List ℝ
  | 0, _, d => d
  | fuel + 1, mmax, d =>
    if mmax < nn then dlRun isign nn fuel (2 * mmax) (stage isign nn mmax d) else d

/-- Number of iterations executed by the outer stage loop. -/
def dlRunCount (nn : ℕ) : ℕ → ℕ → ℕ
  | 0, _ => 0
  | fuel + 1, mmax => if mmax < nn then dlRunCount nn fuel (2 * mmax) + 1 else 0

/-- The inverse-direction fix-up loop:
`mul := 1.0 * float64(n); for i := 0; i < n; i++ { data[i] *= mul }`.
Note the loop bound really is `n`, not `2*n`. -/
def scaleLoop (n : ℕ) (d : List ℝ) : List ℝ :=
  (List.range n).foldl (fun e i => e.set i (val e i * n)) d

/-- `IsPowerOfTwo` from fourier.go.  Go's `n&(n-1)` on `int` agrees with
`Nat.land` once `n ≥ 1`, which is the only branch where it is evaluated. -/
def IsPowerOfTwo (n : ℤ) : Bool :=
  if n < 1 then false else (n.toNat &&& (n.toNat - 1)) == 0

/-- The two validation failures reported by `FourierTransLL` (via `chk.Err`). -/
inductive TransError
  | invalidLength
  | notPowerOfTwo
deriving DecidableEq

/-- `FourierTransLL` from fourier.go.  The returned pair models Go's
`(err, data)` after the call: the error (if any) and the final array state. -/
noncomputable def FourierTransLL (data : List ℝ) (inverse : Bool) :
    Option TransError × List ℝ :=
  let ldata := data.length
  if ldata < 4 ∨ ldata % 2 > 0 then (some TransError.invalidLength, data)
  else
    let n := ldata / 2
    if n < 2 ∨ ¬ IsPowerOfTwo (n : ℤ) then (some TransError.notPowerOfTwo, data)
    else
      let nn := 2 * n
      let d1 := bitrevSection n data
      let d2 := dlRun (isignOf inverse) nn nn 2 d1
      if inverse then (none, scaleLoop n d2) else (none, d2)

/-- Complex view of sample `p` of the interleaved array. -/
noncomputable def cSample (d : List ℝ) (p : ℕ) : ℂ :=
  (val d (2 * p) : ℝ) + (val d (2 * p + 1) : ℝ) * Complex.I

/-- Bit reversal of `k` with respect to `b` bits (LSB of `k` becomes MSB). -/
def bitrev : ℕ → ℕ → ℕ
  | 0, _ => 0
  | b + 1, k => k % 2 * 2 ^ b + bitrev b (k / 2)

/-- The `(re, im)` pair of sample `p` of the interleaved array. -/
def samplePair (d : List ℝ) (p : ℕ) : ℝ × ℝ := (val d (2 * p), val d (2 * p + 1))

/-- `e^(c·i)` for a real angle `c`. -/
noncomputable def expI (c : ℝ) : ℂ := Complex.exp (c * Complex.I)

/-- The intended intermediate state of the Danielson-Lanczos section on input
samples `x` (with `n = 2^b`), after the stages up to sub-transform size `2^s`:
position `p` holds coefficient `p % 2^s` of the `2^s`-point transform (with
direction sign `isign`) of the stride-`2^(b-s)` subsequence of `x` selected by
the bit-reversed block index.  At `s = 0` this is the bit-reversed input; at
`s = b` it is the full transform. -/
noncomputable def dftState (isign : ℝ) (b s : ℕ) (x : ℕ → ℂ) (p : ℕ) : ℂ :=
  ∑ t ∈ Finset.range (2 ^ s),
    x (t * 2 ^ (b - s) + bitrev (b - s) (p / 2 ^ s)) *
      expI (isign * (2 * Real.pi / ((2 ^ s : ℕ) : ℝ)) * ((t * (p % 2 ^ s) : ℕ) : ℝ))

/-- The full validity predicate of `FourierTransLL`: the interleaved array has
even length at least 4, and `n = length/2` is a power of two. -/
def ValidInput (ldata : ℕ) : Prop :=
  4 ≤ ldata ∧ ldata % 2 = 0 ∧ ∃ k : ℕ, ldata / 2 = 2 ^ k

/-! ## Basic array-access lemmas -/

theorem val_set_self {d : List ℝ} {i : ℕ} (a : ℝ) (h : i < d.length) :
    val (d.set i a) i = a := by
  simp [val, List.getD, List.getElem?_set_eq_of_lt, h]

theorem val_set_other {d : List ℝ} {i j : ℕ} (a : ℝ) (h : i ≠ j) :
    val (d.set i a) j = val d j := by
  simp [val, List.getD, List.getElem?_set_ne, h]

theorem length_Swap (d : List ℝ) (a b : ℕ) : (Swap d a b).length = d.length := by
  simp [Swap]

theorem length_butterfly (wr wi : ℝ) (mmax i : ℕ) (d : List ℝ) :
    (butterfly wr wi mmax i d).length = d.length := by
  simp [butterfly]

theorem length_innerLoop (wr wi : ℝ) (mmax istep nn m : ℕ) (d : List ℝ) :
    (innerLoop wr wi mmax istep nn m d).length = d.length := by
  unfold innerLoop
  induction iIndices m istep nn generalizing d with
  | nil => rfl
  | cons a t ih => simpa [length_butterfly] using ih (butterfly wr wi mmax a d)

/-! ## `IsPowerOfTwo` characterization -/

theorem land_two_mul_pred {m : ℕ} (h : 1 ≤ m) :
    (2 * m) &&& (2 * m - 1) = 2 * (m &&& (m - 1)) := by
  apply Nat.eq_of_testBit_eq
  intro i
  cases i with
  | zero =>
    rw [Nat.testBit_land, Nat.testBit_zero, Nat.testBit_zero]
    simp [Nat.mul_mod_right]
  | succ i =>
    have h1 : 2 * m / 2 = m := by omega
    have h2 : (2 * m - 1) / 2 = m - 1 := by omega
    have h3 : 2 * (m &&& (m - 1)) / 2 = m &&& (m - 1) := by omega
    rw [Nat.testBit_land, Nat.testBit_succ, Nat.testBit_succ, Nat.testBit_succ,
      h1, h2, h3, Nat.testBit_land]

theorem land_two_mul_add_one {m : ℕ} :
    (2 * m + 1) &&& (2 * m) = 2 * m := by
  apply Nat.eq_of_testBit_eq
  intro i
  cases i with
  | zero =>
    rw [Nat.testBit_land, Nat.testBit_zero, Nat.testBit_zero]
    simp [Nat.mul_mod_right]
  | succ i =>
    have h1 : (2 * m + 1) / 2 = m := by omega
    have h2 : 2 * m / 2 = m := by omega
    rw [Nat.testBit_land, Nat.testBit_succ, Nat.testBit_succ, h1, h2, Bool.and_self]

theorem land_pred_eq_zero_iff : ∀ n : ℕ, 1 ≤ n → ((n &&& (n - 1)) = 0 ↔ ∃ k, n = 2 ^ k) := by
  intro n
  induction n using Nat.strong_induction_on with
  | _ n ih =>
    intro hn
    rcases Nat.lt_or_ge n 2 with h2 | h2
    · interval_cases n
      simpa using ⟨0, rfl⟩
    · rcases Nat.even_or_odd n with ⟨m, hm⟩ | ⟨m, hm⟩
      · have hm1 : 1 ≤ m := by omega
        have hrec := ih m (by omega) hm1
        have hmn : n = 2 * m := by omega
        rw [hmn, land_two_mul_pred hm1]
        constructor
        · intro h
          obtain ⟨k, hk⟩ := hrec.mp (by omega)
          exact ⟨k + 1, by rw [hk]; ring⟩
        · rintro ⟨k, hk⟩
          match k with
          | 0 => omega
          | k + 1 =>
            have : m = 2 ^ k := by
              have : 2 * m = 2 * 2 ^ k := by rw [hk]; ring
              omega
            have := hrec.mpr ⟨k, this⟩
            omega
      · have hm1 : 1 ≤ m := by omega
        have hmn : n = 2 * m + 1 := by omega
        rw [hmn]
        rw [show 2 * m + 1 - 1 = 2 * m by omega, land_two_mul_add_one]
        constructor
        · intro h; omega
        · rintro ⟨k, hk⟩
          match k with
          | 0 => omega
          | k + 1 =>
            exfalso
            have : (2 : ℕ) ^ (k + 1) = 2 * 2 ^ k := by ring
            omega

/-- Shared characterization of `IsPowerOfTwo` over the integers. -/
theorem isPowerOfTwo_iff_exists (n : ℤ) :
    IsPowerOfTwo n = true ↔ 1 ≤ n ∧ ∃ k : ℕ, n = 2 ^ k := by
  unfold IsPowerOfTwo
  by_cases h : n < 1
  · simp only [if_pos h]
    constructor
    · intro hc; exact absurd hc (by simp)
    · rintro ⟨h1, _⟩; omega
  · simp only [if_neg h]
    push_neg at h
    have h1 : 1 ≤ n.toNat := by omega
    rw [beq_iff_eq, land_pred_eq_zero_iff n.toNat h1]
    constructor
    · rintro ⟨k, hk⟩
      refine ⟨h, k, ?_⟩
      have := Int.toNat_of_nonneg (by omega : (0:ℤ) ≤ n)
      rw [← this, hk]
      push_cast
      ring
    · rintro ⟨-, k, hk⟩
      refine ⟨k, ?_⟩
      have : (n.toNat : ℤ) = 2 ^ k := by
        rw [Int.toNat_of_nonneg (by omega : (0:ℤ) ≤ n), hk]
      exact_mod_cast this

/-- Membership form for natural `n` as used by the validator. -/
theorem isPowerOfTwo_nat_iff (n : ℕ) :
    IsPowerOfTwo (n : ℤ) = true ↔ 1 ≤ n ∧ ∃ k : ℕ, n = 2 ^ k := by
  rw [isPowerOfTwo_iff_exists]
  constructor
  · rintro ⟨h1, k, hk⟩
    exact ⟨by exact_mod_cast h1, k, by exact_mod_cast hk⟩
  · rintro ⟨h1, k, hk⟩
    exact ⟨by exact_mod_cast h1, k, by exact_mod_cast hk⟩

/-- C10: `IsPowerOfTwo(n)` is true iff `n ≥ 1` and `n` is an exact power of
two; in particular `IsPowerOfTwo(1)` is true, and the function returns false
for zero and for every negative `n` (those values fail `1 ≤ n`). -/
theorem isPowerOfTwo_correct :
    (∀ n : ℤ, IsPowerOfTwo n = true ↔ 1 ≤ n ∧ ∃ k : ℕ, n = 2 ^ k) ∧
      IsPowerOfTwo 1 = true ∧ IsPowerOfTwo 0 = false ∧ IsPowerOfTwo (-7) = false := by
  refine ⟨isPowerOfTwo_iff_exists, by decide, by decide, by decide⟩

/-! ## Validation claims -/

theorem fourier_error_of_invalidLength {data : List ℝ} {inverse : Bool}
    (h : data.length < 4 ∨ data.length % 2 = 1) :
    FourierTransLL data inverse = (some TransError.invalidLength, data) := by
  unfold FourierTransLL
  have : data.length < 4 ∨ data.length % 2 > 0 := by omega
  simp only [if_pos this]

theorem fourier_error_of_notPowerOfTwo {data : List ℝ} {inverse : Bool}
    (hlen : ¬ (data.length < 4 ∨ data.length % 2 = 1))
    (hpow : ¬ ∃ k : ℕ, data.length / 2 = 2 ^ k) :
    FourierTransLL data inverse = (some TransError.notPowerOfTwo, data) := by
  unfold FourierTransLL
  have h1 : ¬ (data.length < 4 ∨ data.length % 2 > 0) := by omega
  have h2 : data.length / 2 < 2 ∨ ¬ IsPowerOfTwo ((data.length / 2 : ℕ) : ℤ) = true := by
    right
    rw [isPowerOfTwo_nat_iff]
    rintro ⟨-, hk⟩
    exact hpow hk
  simp only [if_neg h1, if_pos h2]

theorem fourier_ok_of_valid {data : List ℝ} {inverse : Bool}
    (h : ValidInput data.length) :
    FourierTransLL data inverse =
      (let n := data.length / 2
       let d2 := dlRun (isignOf inverse) (2 * n) (2 * n) 2 (bitrevSection n data)
       if inverse then (none, scaleLoop n d2) else (none, d2)) := by
  obtain ⟨h4, he, k, hk⟩ := h
  unfold FourierTransLL
  have h1 : ¬ (data.length < 4 ∨ data.length % 2 > 0) := by omega
  have hn2 : 2 ≤ data.length / 2 := by omega
  have h2 : ¬ (data.length / 2 < 2 ∨ ¬ IsPowerOfTwo ((data.length / 2 : ℕ) : ℤ) = true) := by
    push_neg
    refine ⟨by omega, ?_⟩
    rw [isPowerOfTwo_nat_iff]
    exact ⟨by omega, k, hk⟩
  simp only [if_neg h1, if_neg h2]

/-- C2: the error result of `FourierTransLL` is `InvalidLength` exactly when
the length is `< 4` or odd; otherwise `NotPowerOfTwo` exactly when
`n = len/2` is `< 2` or not a power of two; otherwise the call returns no
error, for both directions. -/
theorem fourier_error_characterization (data : List ℝ) (inverse : Bool) :
    ((FourierTransLL data inverse).1 = some TransError.invalidLength ↔
      data.length < 4 ∨ data.length % 2 = 1) ∧
    ((FourierTransLL data inverse).1 = some TransError.notPowerOfTwo ↔
      (4 ≤ data.length ∧ data.length % 2 = 0) ∧
        (data.length / 2 < 2 ∨ ¬ ∃ k : ℕ, data.length / 2 = 2 ^ k)) ∧
    ((FourierTransLL data inverse).1 = none ↔ ValidInput data.length) := by
  by_cases hlen : data.length < 4 ∨ data.length % 2 = 1
  · rw [fourier_error_of_invalidLength hlen]
    refine ⟨by simpa using hlen, ?_, ?_⟩
    · simp only [show (some TransError.invalidLength = some TransError.notPowerOfTwo) ↔ False
        by simp]
      constructor
      · exact fun h => h.elim
      · rintro ⟨⟨h4, he⟩, -⟩; omega
    · constructor
      · intro h; exact absurd h (by simp)
      · rintro ⟨h4, he, -⟩; omega
  · by_cases hpow : ∃ k : ℕ, data.length / 2 = 2 ^ k
    · have hv : ValidInput data.length := ⟨by omega, by omega, hpow⟩
      have hfst : (FourierTransLL data inverse).1 = none := by
        rw [@fourier_ok_of_valid data inverse hv]
        cases inverse <;> rfl
      rw [hfst]
      refine ⟨?_, ?_, by simpa using hv⟩
      · constructor
        · intro h; exact absurd h (by simp)
        · intro h; exact absurd h hlen
      · constructor
        · intro h; exact absurd h (by simp)
        · rintro ⟨⟨h4, -⟩, hbad | hbad⟩
          · omega
          · exact absurd hpow hbad
    · rw [fourier_error_of_notPowerOfTwo hlen hpow]
      refine ⟨⟨fun h => absurd h (by simp), fun h => absurd h hlen⟩, ?_, ?_⟩
      · constructor
        · intro _; exact ⟨⟨by omega, by omega⟩, Or.inr hpow⟩
        · intro _; rfl
      · constructor
        · intro h; exact absurd h (by simp)
        · rintro ⟨-, -, hk⟩; exact absurd hk hpow

/-- C3: whenever `FourierTransLL` reports an error, the array is returned
completely unchanged — validation runs strictly before any mutation. -/
theorem fourier_error_data_unchanged (data : List ℝ) (inverse : Bool)
    (e : TransError) (h : (FourierTransLL data inverse).1 = some e) :
    (FourierTransLL data inverse).2 = data := by
  by_cases hlen : data.length < 4 ∨ data.length % 2 = 1
  · rw [fourier_error_of_invalidLength hlen]
  · by_cases hpow : ∃ k : ℕ, data.length / 2 = 2 ^ k
    · exfalso
      have hv : ValidInput data.length := ⟨by omega, by omega, hpow⟩
      rw [@fourier_ok_of_valid data inverse hv] at h
      cases inverse <;> simp at h
    · rw [fourier_error_of_notPowerOfTwo hlen hpow]

/-- Witness for C3 at the concrete invalid input `[1]` (length 1 < 4). -/
theorem fourier_error_data_unchanged_witness :
    (FourierTransLL [1] false).1 = some TransError.invalidLength ∧
      (FourierTransLL [1] false).2 = [1] :=
  ⟨by rw [fourier_error_of_invalidLength (by simp)],
   fourier_error_data_unchanged [1] false TransError.invalidLength
     (by rw [fourier_error_of_invalidLength (by simp)])⟩

/-! ## Bit-reversal permutation -/

theorem bitrev_lt : ∀ b k, bitrev b k < 2 ^ b := by
  intro b
  induction b with
  | zero => intro k; simp [bitrev]
  | succ b ih =>
    intro k
    have h1 : k % 2 ≤ 1 := by omega
    have h2 : bitrev b (k / 2) < 2 ^ b := ih (k / 2)
    have : (2 : ℕ) ^ (b + 1) = 2 ^ b + 2 ^ b := by ring
    simp only [bitrev]
    nlinarith [h2, h1]

theorem bitrev_zero_right (b : ℕ) : bitrev b 0 = 0 := by
  induction b with
  | zero => rfl
  | succ b ih => simp [bitrev, ih]

theorem bitrev_succ_even (b t : ℕ) : bitrev (b + 1) (2 * t) = bitrev b t := by
  simp [bitrev, Nat.mul_mod_right, Nat.mul_div_cancel_left t (by norm_num : 0 < 2)]

theorem bitrev_succ_odd (b t : ℕ) : bitrev (b + 1) (2 * t + 1) = 2 ^ b + bitrev b t := by
  have h1 : (2 * t + 1) % 2 = 1 := by omega
  have h2 : (2 * t + 1) / 2 = t := by omega
  simp [bitrev, h1, h2]

theorem bitrev_double : ∀ b r, r < 2 ^ b → bitrev (b + 1) r = 2 * bitrev b r := by
  intro b
  induction b with
  | zero =>
    intro r hr
    interval_cases r
    simp [bitrev]
  | succ b ih =>
    intro r hr
    have h2 : r / 2 < 2 ^ b := by omega
    calc bitrev (b + 2) r
        = r % 2 * 2 ^ (b + 1) + bitrev (b + 1) (r / 2) := rfl
      _ = r % 2 * 2 ^ (b + 1) + 2 * bitrev b (r / 2) := by rw [ih (r / 2) h2]
      _ = 2 * (r % 2 * 2 ^ b + bitrev b (r / 2)) := by ring
      _ = 2 * bitrev (b + 1) r := rfl

theorem bitrev_high : ∀ b r, r < 2 ^ b → bitrev (b + 1) (2 ^ b + r) = 2 * bitrev b r + 1 := by
  intro b
  induction b with
  | zero =>
    intro r hr
    interval_cases r
    simp [bitrev]
  | succ b ih =>
    intro r hr
    have hmod : (2 ^ (b + 1) + r) % 2 = r % 2 := by
      have : (2 : ℕ) ^ (b + 1) = 2 * 2 ^ b := by ring
      omega
    have hdiv : (2 ^ (b + 1) + r) / 2 = 2 ^ b + r / 2 := by
      have : (2 : ℕ) ^ (b + 1) = 2 * 2 ^ b := by ring
      omega
    have h2 : r / 2 < 2 ^ b := by omega
    calc bitrev (b + 2) (2 ^ (b + 1) + r)
        = (2 ^ (b + 1) + r) % 2 * 2 ^ (b + 1) + bitrev (b + 1) ((2 ^ (b + 1) + r) / 2) := rfl
      _ = r % 2 * 2 ^ (b + 1) + bitrev (b + 1) (2 ^ b + r / 2) := by rw [hmod, hdiv]
      _ = r % 2 * 2 ^ (b + 1) + (2 * bitrev b (r / 2) + 1) := by rw [ih (r / 2) h2]
      _ = 2 * (r % 2 * 2 ^ b + bitrev b (r / 2)) + 1 := by ring
      _ = 2 * bitrev (b + 1) r + 1 := rfl

theorem bitrev_bitrev : ∀ b k, k < 2 ^ b → bitrev b (bitrev b k) = k := by
  intro b
  induction b with
  | zero =>
    intro k hk
    interval_cases k
    rfl
  | succ b ih =>
    intro k hk
    rcases Nat.even_or_odd k with ⟨t, ht⟩ | ⟨t, ht⟩
    · have hk2 : t < 2 ^ b := by omega
      have h1 : bitrev (b + 1) k = bitrev b t := by
        rw [show k = 2 * t by omega, bitrev_succ_even]
      rw [h1, bitrev_double b (bitrev b t) (bitrev_lt b t), ih t hk2]
      omega
    · have hk2 : t < 2 ^ b := by omega
      have h1 : bitrev (b + 1) k = 2 ^ b + bitrev b t := by rw [ht, bitrev_succ_odd]
      rw [h1, bitrev_high b (bitrev b t) (bitrev_lt b t), ih t hk2]
      omega

theorem carryUpdate_stop {j m : ℕ} (h : ¬ (2 ≤ m ∧ m < j)) : carryUpdate j m = j + m := by
  rw [carryUpdate, if_neg h]

theorem carryUpdate_go {j m : ℕ} (h2 : 2 ≤ m) (hj : m < j) :
    carryUpdate j m = carryUpdate (j - m) (m / 2) := by
  rw [carryUpdate, if_pos ⟨h2, hj⟩]

/-- The carry update advances the bit-reversed counter:
from `j = 2·bitrev b k + 1` with `m = 2^b` it reaches `2·bitrev b (k+1) + 1`. -/
theorem carryUpdate_bitrev : ∀ b k, k + 1 < 2 ^ b →
    carryUpdate (2 * bitrev b k + 1) (2 ^ b) = 2 * bitrev b (k + 1) + 1 := by
  intro b
  induction b with
  | zero => intro k hk; omega
  | succ b ih =>
    intro k hk
    rcases Nat.even_or_odd k with ⟨t, ht⟩ | ⟨t, ht⟩
    · have hkt : k = 2 * t := by omega
      have h1 : bitrev (b + 1) k = bitrev b t := by rw [hkt, bitrev_succ_even]
      have h2 : bitrev (b + 1) (k + 1) = 2 ^ b + bitrev b t := by
        rw [show k + 1 = 2 * t + 1 by omega, bitrev_succ_odd]
      have hlt := bitrev_lt b t
      have hstop : ¬ (2 ≤ 2 ^ (b + 1) ∧ 2 ^ (b + 1) < 2 * bitrev (b + 1) k + 1) := by
        rw [h1]
        have : (2 : ℕ) ^ (b + 1) = 2 * 2 ^ b := by ring
        omega
      rw [carryUpdate_stop hstop, h1, h2]
      have : (2 : ℕ) ^ (b + 1) = 2 * 2 ^ b := by ring
      omega
    · have hkt : k = 2 * t + 1 := by omega
      have h1 : bitrev (b + 1) k = 2 ^ b + bitrev b t := by rw [hkt, bitrev_succ_odd]
      have h2 : bitrev (b + 1) (k + 1) = bitrev b (t + 1) := by
        rw [show k + 1 = 2 * (t + 1) by omega, bitrev_succ_even]
      have hp : (2 : ℕ) ^ (b + 1) = 2 * 2 ^ b := by ring
      have hgo : carryUpdate (2 * bitrev (b + 1) k + 1) (2 ^ (b + 1)) =
          carryUpdate (2 * bitrev (b + 1) k + 1 - 2 ^ (b + 1)) (2 ^ (b + 1) / 2) := by
        apply carryUpdate_go
        · have h0 : (1 : ℕ) ≤ 2 ^ b := Nat.one_le_two_pow
          omega
        · rw [h1]; omega
      have harg : 2 * bitrev (b + 1) k + 1 - 2 ^ (b + 1) = 2 * bitrev b t + 1 := by
        rw [h1]; omega
      have hdiv : (2 : ℕ) ^ (b + 1) / 2 = 2 ^ b := by omega
      rw [hgo, harg, hdiv, ih t (by omega), h2]

theorem val_Swap (d : List ℝ) (a b : ℕ) (ha : a < d.length) (hb : b < d.length) (x : ℕ) :
    val (Swap d a b) x = if x = b then val d a else if x = a then val d b else val d x := by
  unfold Swap
  by_cases hxb : x = b
  · subst hxb
    rw [val_set_self _ (by simpa using hb), if_pos rfl]
  · rw [val_set_other _ (fun h => hxb h.symm)]
    by_cases hxa : x = a
    · subst hxa
      rw [val_set_self _ ha, if_neg hxb, if_pos rfl]
    · rw [val_set_other _ (fun h => hxa h.symm), if_neg hxb, if_neg hxa]

theorem samplePair_swap2 (d : List ℝ) (a c : ℕ)
    (ha : 2 * a + 1 < d.length) (hc : 2 * c + 1 < d.length) (p : ℕ) :
    samplePair (Swap (Swap d (2 * a) (2 * c)) (2 * a + 1) (2 * c + 1)) p =
      if p = c then samplePair d a else if p = a then samplePair d c else samplePair d p := by
  have hlen : (Swap d (2 * a) (2 * c)).length = d.length := length_Swap d _ _
  have hre : val (Swap (Swap d (2 * a) (2 * c)) (2 * a + 1) (2 * c + 1)) (2 * p) =
      val (Swap d (2 * a) (2 * c)) (2 * p) := by
    rw [val_Swap _ _ _ (by omega) (by omega), if_neg (by omega), if_neg (by omega)]
  have hodd : ∀ x, val (Swap d (2 * a) (2 * c)) (2 * x + 1) = val d (2 * x + 1) := by
    intro x
    rw [val_Swap d _ _ (by omega) (by omega), if_neg (by omega), if_neg (by omega)]
  have him : val (Swap (Swap d (2 * a) (2 * c)) (2 * a + 1) (2 * c + 1)) (2 * p + 1) =
      if p = c then val d (2 * a + 1) else if p = a then val d (2 * c + 1)
        else val d (2 * p + 1) := by
    rw [val_Swap _ _ _ (by omega) (by omega)]
    by_cases h1 : p = c
    · rw [if_pos (by omega), if_pos h1, hodd]
    · rw [if_neg (by omega)]
      by_cases h2 : p = a
      · rw [if_pos (by omega), if_neg h1, if_pos h2, hodd]
      · rw [if_neg (by omega), if_neg h1, if_neg h2, hodd]
  have hre2 : val (Swap d (2 * a) (2 * c)) (2 * p) =
      if p = c then val d (2 * a) else if p = a then val d (2 * c) else val d (2 * p) := by
    rw [val_Swap _ _ _ (by omega) (by omega)]
    by_cases h1 : p = c
    · rw [if_pos (by omega), if_pos h1]
    · rw [if_neg (by omega)]
      by_cases h2 : p = a
      · rw [if_pos (by omega), if_neg h1, if_pos h2]
      · rw [if_neg (by omega), if_neg h1, if_neg h2]
  unfold samplePair
  rw [hre, hre2, him]
  by_cases h1 : p = c
  · rw [if_pos h1, if_pos h1, if_pos h1]
  · rw [if_neg h1, if_neg h1, if_neg h1]
    by_cases h2 : p = a
    · rw [if_pos h2, if_pos h2, if_pos h2]
    · rw [if_neg h2, if_neg h2, if_neg h2]

theorem length_bitrevStep (n : ℕ) (s : List ℝ × ℕ) (i : ℕ) :
    ((bitrevStep n s i).1).length = s.1.length := by
  unfold bitrevStep
  by_cases h : i < s.2
  · simp only [if_pos h, length_Swap]
  · simp only [if_neg h]

theorem length_bitrevFold (n : ℕ) (l : List ℕ) (s : List ℝ × ℕ) :
    ((l.foldl (bitrevStep n) s).1).length = s.1.length := by
  induction l generalizing s with
  | nil => rfl
  | cons a t ih => rw [List.foldl_cons, ih, length_bitrevStep]

theorem length_bitrevSection (n : ℕ) (d : List ℝ) :
    (bitrevSection n d).length = d.length := by
  unfold bitrevSection
  exact length_bitrevFold n _ (d, 1)

/-- Invariant of the bit-reversal loop: starting after `t` processed odd
indices with counter `j = 2·bitrev t + 1` and the partially swapped array,
the remaining iterations complete the bit-reversal permutation. -/
theorem bitrevLoop_spec (b n : ℕ) (hn : n = 2 ^ b) (d0 : List ℝ) :
    ∀ (cnt t : ℕ) (d : List ℝ) (j : ℕ),
      t + cnt = n →
      d.length = 2 * n →
      (t < n → j = 2 * bitrev b t + 1) →
      (∀ p, p < n → samplePair d p =
        (if p < t ∨ bitrev b p < t then samplePair d0 (bitrev b p) else samplePair d0 p)) →
      ∀ p, p < n →
        samplePair (((List.range' (2 * t + 1) cnt 2).foldl (bitrevStep n) (d, j)).1) p =
          samplePair d0 (bitrev b p) := by
  intro cnt
  induction cnt with
  | zero =>
    intro t d j hcnt _ _ hchar p hp
    have : p < t ∨ bitrev b p < t := Or.inl (by omega)
    simpa [if_pos this] using hchar p hp
  | succ cnt ih =>
    intro t d j hcnt hlen hj hchar p hp
    have ht : t < n := by omega
    have hjv := hj ht
    set rt := bitrev b t with hrt
    have hrtlt : rt < n := by rw [hn, hrt]; exact bitrev_lt b t
    have hrr : bitrev b rt = t := by
      rw [hrt]
      exact bitrev_bitrev b t (by omega)
    have hstep : bitrevStep n (d, j) (2 * t + 1) =
        ((if 2 * t + 1 < j then Swap (Swap d (j - 1) (2 * t + 1 - 1)) j (2 * t + 1) else d),
          carryUpdate j n) := rfl
    have hrange : List.range' (2 * t + 1) (cnt + 1) 2 =
        (2 * t + 1) :: List.range' (2 * (t + 1) + 1) cnt 2 := by
      have harg : 2 * t + 1 + 2 = 2 * (t + 1) + 1 := by omega
      rw [List.range'_succ, harg]
    rw [hrange, List.foldl_cons, hstep]
    set d' := if 2 * t + 1 < j then Swap (Swap d (j - 1) (2 * t + 1 - 1)) j (2 * t + 1) else d
      with hd'
    have hlend' : d'.length = 2 * n := by
      rw [hd']
      by_cases h : 2 * t + 1 < j
      · simp only [if_pos h, length_Swap, hlen]
      · simp only [if_neg h, hlen]
    have hj' : t + 1 < n → carryUpdate j n = 2 * bitrev b (t + 1) + 1 := by
      intro h
      rw [hjv, hn]
      exact carryUpdate_bitrev b t (by omega)
    have hchar' : ∀ q, q < n → samplePair d' q =
        (if q < t + 1 ∨ bitrev b q < t + 1 then samplePair d0 (bitrev b q)
          else samplePair d0 q) := by
      intro q hq
      by_cases hcase : t < rt
      · have hswap : 2 * t + 1 < j := by omega
        have hd'2 : d' = Swap (Swap d (2 * rt) (2 * t)) (2 * rt + 1) (2 * t + 1) := by
          rw [hd', if_pos hswap, hjv]
          congr 1
        rw [hd'2, samplePair_swap2 d rt t (by omega) (by omega) q]
        by_cases h1 : q = t
        · subst h1
          rw [if_pos rfl, if_pos (Or.inl (by omega))]
          have := hchar rt hrtlt
          rw [if_neg (by omega)] at this
          rw [this]
        · rw [if_neg h1]
          by_cases h2 : q = rt
          · subst h2
            rw [if_pos rfl, if_pos (Or.inr (by omega)), hrr]
            have := hchar t ht
            rw [if_neg (by omega)] at this
            rw [this]
          · rw [if_neg h2]
            have hinv : bitrev b (bitrev b q) = q := by
              rw [hn] at hq
              exact bitrev_bitrev b q hq
            have hne : bitrev b q ≠ t := by
              intro hbq
              rw [hbq] at hinv
              omega
            have hiff : (q < t + 1 ∨ bitrev b q < t + 1) ↔ (q < t ∨ bitrev b q < t) := by
              omega
            rw [hchar q hq]
            by_cases hc : q < t ∨ bitrev b q < t
            · rw [if_pos hc, if_pos (hiff.mpr hc)]
            · rw [if_neg hc, if_neg (fun h => hc (hiff.mp h))]
      · have hnoswap : ¬ (2 * t + 1 < j) := by omega
        have hd'2 : d' = d := by rw [hd', if_neg hnoswap]
        rw [hd'2, hchar q hq]
        by_cases hc : q < t ∨ bitrev b q < t
        · have hc2 : q < t + 1 ∨ bitrev b q < t + 1 := by omega
          rw [if_pos hc, if_pos hc2]
        · rw [if_neg hc]
          by_cases hc' : q < t + 1 ∨ bitrev b q < t + 1
          · have hinv : bitrev b (bitrev b q) = q := by
              rw [hn] at hq
              exact bitrev_bitrev b q hq
            have hqt : q = t ∨ bitrev b q = t := by omega
            have hrevq : bitrev b q = q := by
              rcases hqt with h | h
              · have e1 : bitrev b q = bitrev b t := by rw [h]
                omega
              · rw [h] at hinv
                omega
            rw [if_pos hc', hrevq]
          · rw [if_neg hc']
    exact ih (t + 1) d' (carryUpdate j n) (by omega) hlend' hj' hchar' p hp

/-- Pointwise description of the bit-reversal section: sample `p` of the
result is sample `bitrev p` of the input. -/
theorem bitrevSection_spec (b n : ℕ) (hn : n = 2 ^ b) (d : List ℝ) (hlen : d.length = 2 * n) :
    ∀ p, p < n → samplePair (bitrevSection n d) p = samplePair d (bitrev b p) := by
  intro p hp
  have h0 : List.range' 1 n 2 = List.range' (2 * 0 + 1) n 2 := by norm_num
  unfold bitrevSection
  rw [h0]
  refine bitrevLoop_spec b n hn d n 0 d 1 (by omega) hlen
    (fun _ => by rw [bitrev_zero_right]) (fun q hq => ?_) p hp
  rw [if_neg (by omega)]

/-- C4: after the bit-reversal section (and before any butterfly stage), the
sample originally at index `k` resides at index `bitrev k` (with respect to
`log2 n` bits), and the resulting array is a permutation of the input. -/
theorem bitrevSection_correct (b n : ℕ) (_hb : 1 ≤ b) (hn : n = 2 ^ b)
    (d : List ℝ) (hlen : d.length = 2 * n) :
    (∀ k, k < n → samplePair (bitrevSection n d) (bitrev b k) = samplePair d k) ∧
      ∃ σ : Equiv.Perm (Fin (2 * n)), ∀ i : Fin (2 * n),
        val (bitrevSection n d) i = val d (σ i) := by
  constructor
  · intro k hk
    have hlt : bitrev b k < n := by
      rw [hn]
      exact bitrev_lt b k
    have := bitrevSection_spec b n hn d hlen (bitrev b k) hlt
    rw [bitrev_bitrev b k (by omega)] at this
    exact this
  · have hbound : ∀ i : Fin (2 * n), 2 * bitrev b (i.val / 2) + i.val % 2 < 2 * n := by
      intro i
      have := bitrev_lt b (i.val / 2)
      omega
    have hinvol : Function.Involutive (fun i : Fin (2 * n) =>
        (⟨2 * bitrev b (i.val / 2) + i.val % 2, hbound i⟩ : Fin (2 * n))) := by
      intro i
      apply Fin.ext
      show 2 * bitrev b ((2 * bitrev b (i.val / 2) + i.val % 2) / 2) +
        (2 * bitrev b (i.val / 2) + i.val % 2) % 2 = i.val
      have h1 : (2 * bitrev b (i.val / 2) + i.val % 2) / 2 = bitrev b (i.val / 2) := by omega
      have h2 : (2 * bitrev b (i.val / 2) + i.val % 2) % 2 = i.val % 2 := by omega
      rw [h1, h2, bitrev_bitrev b (i.val / 2) (by have := i.isLt; omega)]
      omega
    refine ⟨hinvol.toPerm, ?_⟩
    intro i
    have hfv : ((hinvol.toPerm) i).val = 2 * bitrev b (i.val / 2) + i.val % 2 := rfl
    have hqn : i.val / 2 < n := by have := i.isLt; omega
    have hs := bitrevSection_spec b n hn d hlen (i.val / 2) hqn
    rcases Nat.even_or_odd i.val with ⟨q, hq⟩ | ⟨q, hq⟩
    · have e1 : i.val / 2 = q := by omega
      have e2 : i.val % 2 = 0 := by omega
      have hfst := congrArg Prod.fst hs
      simp only [samplePair] at hfst
      rw [e1] at hfv
      rw [e2, Nat.add_zero] at hfv
      rw [hfv, e1] at *
      rw [show i.val = 2 * q by omega]
      exact hfst
    · have e1 : i.val / 2 = q := by omega
      have e2 : i.val % 2 = 1 := by omega
      have hsnd := congrArg Prod.snd hs
      simp only [samplePair] at hsnd
      rw [e1] at hfv
      rw [e2] at hfv
      rw [hfv, e1] at *
      rw [show i.val = 2 * q + 1 by omega]
      exact hsnd

/-- Witness for C4 at `n = 2`, `b = 1`, input `[1, 2, 3, 4]`. -/
theorem bitrevSection_correct_witness :
    (∀ k, k < 2 → samplePair (bitrevSection 2 [1, 2, 3, 4]) (bitrev 1 k) =
      samplePair ([1, 2, 3, 4] : List ℝ) k) ∧
      ∃ σ : Equiv.Perm (Fin (2 * 2)), ∀ i : Fin (2 * 2),
        val (bitrevSection 2 [1, 2, 3, 4]) i = val ([1, 2, 3, 4] : List ℝ) (σ i) :=
  bitrevSection_correct 1 2 (by norm_num) (by norm_num) [1, 2, 3, 4] (by norm_num)

/-! ## Complex exponential helpers -/

theorem expI_add (a b : ℝ) : expI (a + b) = expI a * expI b := by
  unfold expI
  rw [← Complex.exp_add]
  congr 1
  push_cast
  ring

theorem expI_zero : expI 0 = 1 := by simp [expI]

theorem expI_pow (c : ℝ) (k : ℕ) : expI c ^ k = expI (k * c) := by
  unfold expI
  rw [← Complex.exp_nat_mul]
  congr 1
  push_cast
  ring

theorem expI_two_pi : expI (2 * Real.pi) = 1 := by
  unfold expI
  rw [show ((2 * Real.pi : ℝ) : ℂ) * Complex.I = 2 * Real.pi * Complex.I by push_cast; ring]
  exact Complex.exp_two_pi_mul_I

theorem expI_pi : expI Real.pi = -1 := Complex.exp_pi_mul_I

theorem expI_neg (c : ℝ) : expI (-c) = (expI c)⁻¹ := by
  unfold expI
  rw [show ((-c : ℝ) : ℂ) * Complex.I = -(c * Complex.I) by push_cast; ring, Complex.exp_neg]

theorem expI_ne_zero (c : ℝ) : expI c ≠ 0 := Complex.exp_ne_zero _

/-! ## Butterfly characterization -/

theorem val_butterfly (wr wi : ℝ) (M u : ℕ) (d : List ℝ) (_hM : 1 ≤ M)
    (hlen : 2 * (u + M) + 1 < d.length) (x : ℕ) :
    val (butterfly wr wi (2 * M) (2 * u + 1) d) x =
      if x = 2 * u then
        val d (2 * u) + (wr * val d (2 * (u + M)) - wi * val d (2 * (u + M) + 1))
      else if x = 2 * u + 1 then
        val d (2 * u + 1) + (wr * val d (2 * (u + M) + 1) + wi * val d (2 * (u + M)))
      else if x = 2 * (u + M) then
        val d (2 * u) - (wr * val d (2 * (u + M)) - wi * val d (2 * (u + M) + 1))
      else if x = 2 * (u + M) + 1 then
        val d (2 * u + 1) - (wr * val d (2 * (u + M) + 1) + wi * val d (2 * (u + M)))
      else val d x := by
  have e2 : 2 * u + 1 + 2 * M = 2 * (u + M) + 1 := by omega
  have e3 : 2 * u + 1 - 1 = 2 * u := by omega
  have e4 : 2 * (u + M) + 1 - 1 = 2 * (u + M) := by omega
  simp only [butterfly, e2, e3]
  simp only [e4]
  set tempr := wr * val d (2 * (u + M)) - wi * val d (2 * (u + M) + 1) with htr
  set tempi := wr * val d (2 * (u + M) + 1) + wi * val d (2 * (u + M)) with hti
  set d1 := d.set (2 * (u + M)) (val d (2 * u) - tempr) with hd1
  have r1 : val d1 (2 * u + 1) = val d (2 * u + 1) := val_set_other _ (by omega)
  rw [r1]
  set d2 := d1.set (2 * (u + M) + 1) (val d (2 * u + 1) - tempi) with hd2
  have r2 : val d2 (2 * u) = val d (2 * u) := by
    rw [hd2, val_set_other _ (by omega), hd1, val_set_other _ (by omega)]
  rw [r2]
  set d3 := d2.set (2 * u) (val d (2 * u) + tempr) with hd3
  have r3 : val d3 (2 * u + 1) = val d (2 * u + 1) := by
    rw [hd3, val_set_other _ (by omega), hd2, val_set_other _ (by omega), r1]
  rw [r3]
  have len1 : d1.length = d.length := by simp [hd1]
  have len2 : d2.length = d.length := by simp [hd2, len1]
  have len3 : d3.length = d.length := by simp [hd3, len2]
  by_cases hx1 : x = 2 * u + 1
  · subst hx1
    rw [val_set_self _ (by omega), if_neg (by omega), if_pos rfl]
  · rw [val_set_other _ (fun h => hx1 h.symm)]
    by_cases hx2 : x = 2 * u
    · subst hx2
      rw [hd3, val_set_self _ (by omega), if_pos rfl]
    · rw [hd3, val_set_other _ (fun h => hx2 h.symm)]
      by_cases hx3 : x = 2 * (u + M) + 1
      · subst hx3
        rw [hd2, val_set_self _ (by omega), if_neg (by omega), if_neg (by omega),
          if_neg (by omega), if_pos rfl]
      · rw [hd2, val_set_other _ (fun h => hx3 h.symm)]
        by_cases hx4 : x = 2 * (u + M)
        · subst hx4
          rw [hd1, val_set_self _ (by omega), if_neg (by omega), if_neg (by omega), if_pos rfl]
        · rw [hd1, val_set_other _ (fun h => hx4 h.symm), if_neg hx2, if_neg hx1,
            if_neg hx4, if_neg hx3]

theorem cSample_butterfly (wr wi : ℝ) (M u : ℕ) (d : List ℝ) (hM : 1 ≤ M)
    (hlen : 2 * (u + M) + 1 < d.length) (p : ℕ) :
    cSample (butterfly wr wi (2 * M) (2 * u + 1) d) p =
      if p = u then cSample d u + ((wr : ℂ) + (wi : ℂ) * Complex.I) * cSample d (u + M)
      else if p = u + M then
        cSample d u - ((wr : ℂ) + (wi : ℂ) * Complex.I) * cSample d (u + M)
      else cSample d p := by
  unfold cSample
  rw [val_butterfly wr wi M u d hM hlen (2 * p), val_butterfly wr wi M u d hM hlen (2 * p + 1)]
  by_cases hp1 : p = u
  · subst hp1
    rw [if_pos rfl, if_pos rfl, if_neg (by omega), if_pos rfl]
    apply Complex.ext <;> simp
  · by_cases hp2 : p = u + M
    · subst hp2
      rw [if_neg hp1, if_pos rfl, if_neg (by omega), if_neg (by omega), if_pos rfl,
        if_neg (by omega), if_neg (by omega), if_neg (by omega), if_pos rfl]
      apply Complex.ext <;> simp
    · rw [if_neg hp1, if_neg hp2, if_neg (by omega), if_neg (by omega)]
      rw [if_neg (by omega), if_neg (by omega), if_neg (by omega)]
      rw [if_neg (by omega), if_neg (by omega), if_neg (by omega)]

theorem block_div_mod {M : ℕ} (hM : 0 < M) (t r : ℕ) (hr : r < M) :
    (t * M + r) / M = t ∧ (t * M + r) % M = r := by
  constructor
  · rw [Nat.add_comm, Nat.add_mul_div_right r t hM, Nat.div_eq_of_lt hr]
    omega
  · rw [Nat.add_comm, Nat.add_mul_mod_self_right, Nat.mod_eq_of_lt hr]

theorem block_eq_iff {M : ℕ} (hM : 0 < M) (p t r : ℕ) (hr : r < M) :
    p = t * M + r ↔ p / M = t ∧ p % M = r := by
  constructor
  · rintro rfl
    exact block_div_mod hM t r hr
  · rintro ⟨h1, h2⟩
    conv_lhs => rw [← Nat.div_add_mod p M]
    rw [h1, h2, Nat.mul_comm]

/-- Effect of the innermost loop (fixed offset `o`, fixed rotation `(wr, wi)`)
on the complex samples: in every processed block, the pair of samples at
in-block offsets `o` and `o + M` is combined by one butterfly; everything
else is untouched. -/
theorem cSample_innerFold (wr wi : ℝ) (M n : ℕ) (hM : 1 ≤ M) (o : ℕ) (ho : o < M) :
    ∀ (cnt t0 : ℕ) (d : List ℝ),
      d.length = 2 * n →
      (t0 + cnt) * (2 * M) ≤ n →
      ∀ p, p < n →
        cSample ((List.range' (2 * (t0 * (2 * M) + o) + 1) cnt (4 * M)).foldl
            (fun e i => butterfly wr wi (2 * M) i e) d) p =
          if t0 ≤ p / (2 * M) ∧ p / (2 * M) < t0 + cnt ∧ p % (2 * M) = o then
            cSample d p + ((wr : ℂ) + (wi : ℂ) * Complex.I) * cSample d (p + M)
          else if t0 ≤ p / (2 * M) ∧ p / (2 * M) < t0 + cnt ∧ p % (2 * M) = o + M then
            cSample d (p - M) - ((wr : ℂ) + (wi : ℂ) * Complex.I) * cSample d p
          else cSample d p := by
  intro cnt
  induction cnt with
  | zero =>
    intro t0 d _ _ p _
    rw [if_neg (by omega), if_neg (by omega)]
    rfl
  | succ cnt ih =>
    intro t0 d hlen hbound p hp
    set u := t0 * (2 * M) + o with hu
    have hexp : (t0 + (cnt + 1)) * (2 * M) = t0 * (2 * M) + cnt * (2 * M) + 2 * M := by ring
    have huM : u + M < n := by omega
    have hlen' : 2 * (u + M) + 1 < d.length := by omega
    have hbf := cSample_butterfly wr wi M u d hM hlen'
    have hu_dm := block_div_mod (by omega : 0 < 2 * M) t0 o (by omega)
    have huM_dm : (u + M) / (2 * M) = t0 ∧ (u + M) % (2 * M) = o + M := by
      have : u + M = t0 * (2 * M) + (o + M) := by omega
      rw [this]
      exact block_div_mod (by omega) t0 (o + M) (by omega)
    have hrange : List.range' (2 * u + 1) (cnt + 1) (4 * M) =
        (2 * u + 1) :: List.range' (2 * ((t0 + 1) * (2 * M) + o) + 1) cnt (4 * M) := by
      rw [List.range'_succ]
      have : 2 * u + 1 + 4 * M = 2 * ((t0 + 1) * (2 * M) + o) + 1 := by rw [hu]; ring
      rw [this]
    rw [hrange, List.foldl_cons]
    have hlen1 : (butterfly wr wi (2 * M) (2 * u + 1) d).length = 2 * n := by
      rw [length_butterfly, hlen]
    have hbound1 : (t0 + 1 + cnt) * (2 * M) ≤ n := by
      have : (t0 + 1 + cnt) * (2 * M) = (t0 + (cnt + 1)) * (2 * M) := by ring
      omega
    rw [ih (t0 + 1) (butterfly wr wi (2 * M) (2 * u + 1) d) hlen1 hbound1 p hp]
    have hsplit := Nat.div_add_mod p (2 * M)
    have hcomm : 2 * M * (p / (2 * M)) = p / (2 * M) * (2 * M) := Nat.mul_comm _ _
    have hmod_lt : p % (2 * M) < 2 * M := Nat.mod_lt p (by omega)
    have hEu : ∀ q : ℕ, q = u ↔ q / (2 * M) = t0 ∧ q % (2 * M) = o := by
      intro q
      rw [hu]
      exact block_eq_iff (by omega) q t0 o (by omega)
    have hEuM : ∀ q : ℕ, q = u + M ↔ q / (2 * M) = t0 ∧ q % (2 * M) = o + M := by
      intro q
      rw [hu, show t0 * (2 * M) + o + M = t0 * (2 * M) + (o + M) by omega]
      exact block_eq_iff (by omega) q t0 (o + M) (by omega)
    by_cases hblk : p / (2 * M) = t0
    · -- the block processed by this butterfly
      have hne1 : ¬ (t0 + 1 ≤ p / (2 * M) ∧ p / (2 * M) < t0 + 1 + cnt ∧
          p % (2 * M) = o) := by omega
      have hne2 : ¬ (t0 + 1 ≤ p / (2 * M) ∧ p / (2 * M) < t0 + 1 + cnt ∧
          p % (2 * M) = o + M) := by omega
      rw [if_neg hne1, if_neg hne2, hbf p]
      by_cases hro : p % (2 * M) = o
      · have hpu : p = u := (hEu p).mpr ⟨hblk, hro⟩
        rw [if_pos hpu, if_pos (by omega)]
        rw [hpu]
      · by_cases hroM : p % (2 * M) = o + M
        · have hpuM : p = u + M := (hEuM p).mpr ⟨hblk, hroM⟩
          rw [if_neg (fun h => hro ((hEu p).mp h).2), if_pos hpuM, if_neg (by omega),
            if_pos (by omega), show p - M = u by omega, hpuM]
        · have hpu : p ≠ u := fun h => hro ((hEu p).mp h).2
          have hpuM : p ≠ u + M := fun h => hroM ((hEuM p).mp h).2
          rw [if_neg hpu, if_neg hpuM, if_neg (by omega), if_neg (by omega)]
    · -- a block not touched by this butterfly
      have hpu : p ≠ u := fun h => hblk ((hEu p).mp h).1
      have hpuM : p ≠ u + M := fun h => hblk ((hEuM p).mp h).1
      by_cases hc1 : t0 + 1 ≤ p / (2 * M) ∧ p / (2 * M) < t0 + 1 + cnt ∧ p % (2 * M) = o
      · have hpM_dm : (p + M) / (2 * M) = p / (2 * M) ∧ (p + M) % (2 * M) = o + M := by
          have h : p + M = p / (2 * M) * (2 * M) + (o + M) := by omega
          rw [h]
          exact block_div_mod (by omega) _ (o + M) (by omega)
        have hqu : p + M ≠ u := fun h => by
          have := ((hEu (p + M)).mp h).1
          omega
        have hquM : p + M ≠ u + M := fun h => by
          have := ((hEuM (p + M)).mp h).1
          omega
        rw [if_pos hc1, hbf p, if_neg hpu, if_neg hpuM, hbf (p + M),
          if_neg hqu, if_neg hquM, if_pos (by omega)]
      · rw [if_neg hc1]
        by_cases hc2 : t0 + 1 ≤ p / (2 * M) ∧ p / (2 * M) < t0 + 1 + cnt ∧
            p % (2 * M) = o + M
        · have hpM_dm : (p - M) / (2 * M) = p / (2 * M) ∧ (p - M) % (2 * M) = o := by
            have h : p - M = p / (2 * M) * (2 * M) + o := by omega
            rw [h]
            exact block_div_mod (by omega) _ o (by omega)
          have hqu : p - M ≠ u := fun h => by
            have := ((hEu (p - M)).mp h).1
            omega
          have hquM : p - M ≠ u + M := fun h => by
            have := ((hEuM (p - M)).mp h).1
            omega
          rw [if_pos hc2, hbf p, if_neg hpu, if_neg hpuM, hbf (p - M),
            if_neg hqu, if_neg hquM, if_neg (by omega), if_pos (by omega)]
        · rw [if_neg hc2, hbf p, if_neg hpu, if_neg hpuM, if_neg (by omega),
            if_neg (by omega)]

theorem iIndices_eq (M n o0 : ℕ) (_hM : 1 ≤ M) (ho : o0 < M)
    (hdvd : n / (2 * M) * (2 * M) = n) (hq : 1 ≤ n / (2 * M)) :
    iIndices (2 * o0 + 1) (4 * M) (2 * n) =
      List.range' (2 * o0 + 1) (n / (2 * M)) (4 * M) := by
  unfold iIndices
  set q := n / (2 * M) with hqd
  have h2M : 2 * M ≤ q * (2 * M) := Nat.le_mul_of_pos_left _ hq
  have hn : q * (2 * M) = n := hdvd
  have hle : 2 * o0 + 1 ≤ 2 * n := by omega
  rw [if_pos hle]
  have h4 : 2 * n = q * (4 * M) := by
    rw [← hn]
    ring
  have hsub : (q - 1) * (4 * M) = q * (4 * M) - 4 * M := by
    rw [Nat.sub_mul, Nat.one_mul]
  have hcancel : (q - 1 + 1) * (4 * M) = q * (4 * M) := by
    rw [Nat.sub_add_cancel hq]
  have hdivq : (2 * n - (2 * o0 + 1)) / (4 * M) = q - 1 := by
    apply Nat.div_eq_of_lt_le
    · omega
    · omega
  rw [hdivq]
  congr 1
  omega

/-- One full pass of the innermost loop (all blocks), conditions reduced to
the in-block offset. -/
theorem cSample_innerLoop_full (wr wi : ℝ) (M n : ℕ) (hM : 1 ≤ M) (o0 : ℕ) (ho : o0 < M)
    (d : List ℝ) (hlen : d.length = 2 * n) (hdvd : n / (2 * M) * (2 * M) = n)
    (hq : 1 ≤ n / (2 * M)) (p : ℕ) (hp : p < n) :
    cSample (innerLoop wr wi (2 * M) (4 * M) (2 * n) (2 * o0 + 1) d) p =
      if p % (2 * M) = o0 then
        cSample d p + ((wr : ℂ) + (wi : ℂ) * Complex.I) * cSample d (p + M)
      else if p % (2 * M) = o0 + M then
        cSample d (p - M) - ((wr : ℂ) + (wi : ℂ) * Complex.I) * cSample d p
      else cSample d p := by
  unfold innerLoop
  rw [iIndices_eq M n o0 hM ho hdvd hq]
  have hstart : (2 * o0 + 1) = 2 * (0 * (2 * M) + o0) + 1 := by ring
  rw [hstart,
    cSample_innerFold wr wi M n hM o0 ho (n / (2 * M)) 0 d hlen
      (by rw [Nat.zero_add]; omega) p hp]
  have hblt : p / (2 * M) < n / (2 * M) := by
    rw [Nat.div_lt_iff_lt_mul (by omega : 0 < 2 * M)]
    omega
  by_cases h1 : p % (2 * M) = o0
  · have hcond : 0 ≤ p / (2 * M) ∧ p / (2 * M) < 0 + n / (2 * M) ∧ p % (2 * M) = o0 :=
      ⟨Nat.zero_le _, by omega, h1⟩
    rw [if_pos hcond, if_pos h1]
  · have hncond : ¬ (0 ≤ p / (2 * M) ∧ p / (2 * M) < 0 + n / (2 * M) ∧
        p % (2 * M) = o0) := by omega
    rw [if_neg hncond]
    by_cases h2 : p % (2 * M) = o0 + M
    · have hcond2 : 0 ≤ p / (2 * M) ∧ p / (2 * M) < 0 + n / (2 * M) ∧
          p % (2 * M) = o0 + M := ⟨Nat.zero_le _, by omega, h2⟩
      rw [if_pos hcond2, if_neg h1, if_pos h2]
    · have hncond2 : ¬ (0 ≤ p / (2 * M) ∧ p / (2 * M) < 0 + n / (2 * M) ∧
          p % (2 * M) = o0 + M) := by omega
      rw [if_neg hncond2, if_neg h1, if_neg h2]

/-- Effect of the middle loop of a stage on the complex samples, with the
rotation advanced by the trigonometric recurrence: processing offsets
`o0, o0+1, …, o0+cnt-1` combines, in every block, the sample pairs at
in-block offsets `(o, o + M)` with twiddle factor `W ^ o`. -/
theorem cSample_stageFold (wpr wpi : ℝ) (M n : ℕ) (hM : 1 ≤ M) (W : ℂ)
    (hWrec : ((1 + wpr : ℝ) : ℂ) + (wpi : ℂ) * Complex.I = W)
    (hdvd : n / (2 * M) * (2 * M) = n) (hq : 1 ≤ n / (2 * M)) :
    ∀ (cnt o0 : ℕ) (d : List ℝ) (wr wi : ℝ),
      d.length = 2 * n →
      o0 + cnt ≤ M →
      ((wr : ℂ) + (wi : ℂ) * Complex.I) = W ^ o0 →
      ∀ p, p < n →
        cSample (((List.range' (2 * o0 + 1) cnt 2).foldl
            (mStep wpr wpi (2 * M) (4 * M) (2 * n)) (d, wr, wi)).1) p =
          if o0 ≤ p % (2 * M) ∧ p % (2 * M) < o0 + cnt then
            cSample d p + W ^ (p % (2 * M)) * cSample d (p + M)
          else if o0 + M ≤ p % (2 * M) ∧ p % (2 * M) < o0 + M + cnt then
            cSample d (p - M) - W ^ (p % (2 * M) - M) * cSample d p
          else cSample d p := by
  intro cnt
  induction cnt with
  | zero =>
    intro o0 d wr wi _ _ _ p _
    rw [if_neg (by omega), if_neg (by omega)]
    rfl
  | succ cnt ih =>
    intro o0 d wr wi hlen hbound hstate p hp
    have ho : o0 < M := by omega
    have hrange : List.range' (2 * o0 + 1) (cnt + 1) 2 =
        (2 * o0 + 1) :: List.range' (2 * (o0 + 1) + 1) cnt 2 := by
      rw [List.range'_succ]
      have e : 2 * o0 + 1 + 2 = 2 * (o0 + 1) + 1 := by ring
      rw [e]
    rw [hrange, List.foldl_cons]
    have hm : mStep wpr wpi (2 * M) (4 * M) (2 * n) (d, wr, wi) (2 * o0 + 1) =
        (innerLoop wr wi (2 * M) (4 * M) (2 * n) (2 * o0 + 1) d,
          wr * wpr - wi * wpi + wr, wi * wpr + wr * wpi + wi) := rfl
    rw [hm]
    set d1 := innerLoop wr wi (2 * M) (4 * M) (2 * n) (2 * o0 + 1) d with hd1
    have hlen1 : d1.length = 2 * n := by
      rw [hd1, length_innerLoop, hlen]
    have hstate' : ((wr * wpr - wi * wpi + wr : ℝ) : ℂ) +
        ((wi * wpr + wr * wpi + wi : ℝ) : ℂ) * Complex.I = W ^ (o0 + 1) := by
      have hmul : ((wr * wpr - wi * wpi + wr : ℝ) : ℂ) +
          ((wi * wpr + wr * wpi + wi : ℝ) : ℂ) * Complex.I =
          (((wr : ℝ) : ℂ) + ((wi : ℝ) : ℂ) * Complex.I) *
            (((1 + wpr : ℝ) : ℂ) + ((wpi : ℝ) : ℂ) * Complex.I) := by
        apply Complex.ext <;> simp <;> ring
      rw [hmul, hstate, hWrec, pow_succ]
    rw [ih (o0 + 1) d1 _ _ hlen1 (by omega) hstate' p hp]
    have hil := cSample_innerLoop_full wr wi M n hM o0 ho d hlen hdvd hq
    have hsplit := Nat.div_add_mod p (2 * M)
    have hmod_lt : p % (2 * M) < 2 * M := Nat.mod_lt p (by omega)
    by_cases ha : p % (2 * M) = o0
    · -- the offset processed by this pass
      rw [if_neg (by omega), if_neg (by omega), hil p hp, if_pos ha,
        if_pos (by omega), hstate, ha]
    · by_cases hb : p % (2 * M) = o0 + M
      · rw [if_neg (by omega), if_neg (by omega), hil p hp, if_neg ha, if_pos hb,
          if_neg (by omega), if_pos (by omega), hstate, hb]
        rw [show o0 + M - M = o0 by omega]
      · have hcomm : 2 * M * (p / (2 * M)) = p / (2 * M) * (2 * M) := Nat.mul_comm _ _
        have hblt : p / (2 * M) < n / (2 * M) := by
          rw [Nat.div_lt_iff_lt_mul (by omega : 0 < 2 * M)]
          omega
        have hmul2 : (p / (2 * M) + 1) * (2 * M) ≤ n / (2 * M) * (2 * M) :=
          Nat.mul_le_mul_right _ (by omega)
        have hexp2 : (p / (2 * M) + 1) * (2 * M) = p / (2 * M) * (2 * M) + 2 * M := by ring
        by_cases hc1 : o0 + 1 ≤ p % (2 * M) ∧ p % (2 * M) < o0 + 1 + cnt
        · have hpM : (p + M) % (2 * M) = p % (2 * M) + M := by
            have h : p + M = p / (2 * M) * (2 * M) + (p % (2 * M) + M) := by omega
            rw [h]
            exact (block_div_mod (by omega) _ _ (by omega)).2
          have hpMn : p + M < n := by omega
          rw [if_pos hc1, hil p hp, if_neg ha, if_neg (by omega), hil (p + M) hpMn,
            if_neg (by omega), if_neg (by omega), if_pos (by omega)]
        · rw [if_neg hc1]
          by_cases hc2 : o0 + 1 + M ≤ p % (2 * M) ∧ p % (2 * M) < o0 + 1 + M + cnt
          · have hpM : (p - M) % (2 * M) = p % (2 * M) - M := by
              have h : p - M = p / (2 * M) * (2 * M) + (p % (2 * M) - M) := by omega
              rw [h]
              exact (block_div_mod (by omega) _ _ (by omega)).2
            rw [if_pos hc2, hil p hp, if_neg ha, if_neg hb, hil (p - M) (by omega),
              if_neg (by omega), if_neg (by omega), if_neg (by omega), if_pos (by omega)]
          · rw [if_neg hc2, hil p hp, if_neg ha, if_neg hb, if_neg (by omega),
              if_neg (by omega)]

/-- One full stage of the Danielson-Lanczos section, at the complex sample
level: every block of `2M` samples is combined pairwise at distance `M`,
with exact twiddle factors `e^(iθ)^o` (`θ = isign·2π/mmax`, `mmax = 2M`),
because in exact arithmetic the trigonometric recurrence is an exact
rotation. -/
theorem cSample_stage (isign : ℝ) (n M : ℕ) (hM : 1 ≤ M)
    (hdvd : n / (2 * M) * (2 * M) = n) (hq : 1 ≤ n / (2 * M))
    (d : List ℝ) (hlen : d.length = 2 * n) (p : ℕ) (hp : p < n) :
    cSample (stage isign (2 * n) (2 * M) d) p =
      if p % (2 * M) < M then
        cSample d p + expI (thetaOf isign (2 * M)) ^ (p % (2 * M)) * cSample d (p + M)
      else
        cSample d (p - M) - expI (thetaOf isign (2 * M)) ^ (p % (2 * M) - M) *
          cSample d p := by
  set θ := thetaOf isign (2 * M) with hθ
  set W := expI θ with hWdef
  set wpr := -2 * Real.sin (0.5 * θ) * Real.sin (0.5 * θ) with hwpr
  set wpi := Real.sin θ with hwpi
  have hcos : Real.cos θ = 1 + wpr := by
    rw [hwpr]
    have h2 : θ = 2 * (0.5 * θ) := by ring
    conv_lhs => rw [h2]
    rw [Real.cos_two_mul', Real.cos_sq']
    ring
  have hWrec : ((1 + wpr : ℝ) : ℂ) + (wpi : ℂ) * Complex.I = W := by
    rw [hWdef]
    unfold expI
    rw [Complex.exp_mul_I, ← Complex.ofReal_cos, ← Complex.ofReal_sin]
    rw [hwpi]
    congr 1
    exact_mod_cast hcos.symm
  have hinit : ((1 : ℝ) : ℂ) + ((0 : ℝ) : ℂ) * Complex.I = W ^ 0 := by
    simp
  have hfold := cSample_stageFold wpr wpi M n hM W hWrec hdvd hq M 0 d 1 0 hlen
    (by omega) hinit p hp
  simp only [Nat.mul_zero, Nat.zero_add] at hfold
  have hstage : stage isign (2 * n) (2 * M) d =
      ((List.range' 1 M 2).foldl (mStep wpr wpi (2 * M) (4 * M) (2 * n)) (d, 1, 0)).1 := by
    simp only [stage]
    rw [show 2 * (2 * M) = 4 * M by ring, show 2 * M / 2 = M by omega]
  rw [hstage, hfold]
  have hrlt : p % (2 * M) < 2 * M := Nat.mod_lt p (by omega)
  by_cases hr : p % (2 * M) < M
  · rw [if_pos ⟨Nat.zero_le _, hr⟩, if_pos hr]
  · rw [if_neg (fun h => hr h.2), if_pos ⟨by omega, by omega⟩, if_neg hr]

theorem sum_range_two_mul (N : ℕ) (f : ℕ → ℂ) :
    ∑ u ∈ Finset.range (2 * N), f u =
      (∑ t ∈ Finset.range N, f (2 * t)) + ∑ t ∈ Finset.range N, f (2 * t + 1) := by
  induction N with
  | zero => simp
  | succ N ih =>
    rw [show 2 * (N + 1) = 2 * N + 1 + 1 by ring, Finset.sum_range_succ, Finset.sum_range_succ,
      ih, Finset.sum_range_succ, Finset.sum_range_succ]
    ring

theorem expI_isign_two_pi {isign : ℝ} (hsign : isign = 1 ∨ isign = -1) :
    expI (isign * (2 * Real.pi)) = 1 := by
  rcases hsign with h | h <;> rw [h]
  · rw [one_mul]
    exact expI_two_pi
  · rw [show (-1 : ℝ) * (2 * Real.pi) = -(2 * Real.pi) by ring, expI_neg, expI_two_pi]
    norm_num

theorem expI_isign_pi {isign : ℝ} (hsign : isign = 1 ∨ isign = -1) :
    expI (isign * Real.pi) = -1 := by
  rcases hsign with h | h <;> rw [h]
  · rw [one_mul]
    exact expI_pi
  · rw [show (-1 : ℝ) * Real.pi = -Real.pi by ring, expI_neg, expI_pi]
    norm_num

/-- Merging step of the decimation-in-time recursion, lower half of a block:
for `p = b2·2S + o2` with `o2 < S = 2^s`, the butterfly combination of the
two `S`-point sub-transforms equals coefficient `o2` of the `2S`-point
transform. -/
theorem dftState_step_lo (isign : ℝ) (b s : ℕ) (hs : s < b) (x : ℕ → ℂ)
    (b2 o2 : ℕ) (ho2 : o2 < 2 ^ s) (p : ℕ) (hpdef : p = b2 * (2 * 2 ^ s) + o2) :
    dftState isign b s x p + expI (thetaOf isign (2 * 2 ^ s)) ^ o2 *
        dftState isign b s x (p + 2 ^ s)
      = dftState isign b (s + 1) x p := by
  have hS0 : 0 < 2 ^ s := pow_pos (by norm_num) s
  have hSR : ((2 ^ s : ℕ) : ℝ) ≠ 0 := by
    exact_mod_cast hS0.ne'
  have hbs : b - s = (b - s - 1) + 1 := by omega
  have hbs1 : b - (s + 1) = b - s - 1 := by omega
  have hpow : (2 : ℕ) ^ (b - s) = 2 * 2 ^ (b - s - 1) := by
    conv_lhs => rw [hbs]
    rw [pow_succ]
    ring
  have h2S : (2 : ℕ) ^ (s + 1) = 2 * 2 ^ s := by
    rw [pow_succ]
    ring
  have hdm1 : p / 2 ^ s = 2 * b2 ∧ p % 2 ^ s = o2 := by
    have h : p = (2 * b2) * 2 ^ s + o2 := by rw [hpdef]; ring
    rw [h]
    exact block_div_mod hS0 _ _ ho2
  have hdm2 : (p + 2 ^ s) / 2 ^ s = 2 * b2 + 1 ∧ (p + 2 ^ s) % 2 ^ s = o2 := by
    have h : p + 2 ^ s = (2 * b2 + 1) * 2 ^ s + o2 := by rw [hpdef]; ring
    rw [h]
    exact block_div_mod hS0 _ _ ho2
  have hdm3 : p / (2 * 2 ^ s) = b2 ∧ p % (2 * 2 ^ s) = o2 := by
    rw [hpdef]
    exact block_div_mod (by omega) _ _ (by omega)
  have hbrev_even : bitrev (b - s) (2 * b2) = bitrev (b - s - 1) b2 := by
    conv_lhs => rw [hbs]
    exact bitrev_succ_even _ _
  have hbrev_odd : bitrev (b - s) (2 * b2 + 1) =
      2 ^ (b - s - 1) + bitrev (b - s - 1) b2 := by
    conv_lhs => rw [hbs]
    exact bitrev_succ_odd _ _
  have hEven : dftState isign b s x p =
      ∑ t ∈ Finset.range (2 ^ s),
        x (2 * t * 2 ^ (b - s - 1) + bitrev (b - s - 1) b2) *
          expI (isign * (2 * Real.pi / ((2 * 2 ^ s : ℕ) : ℝ)) *
            ((2 * t * o2 : ℕ) : ℝ)) := by
    unfold dftState
    refine Finset.sum_congr rfl (fun t _ => ?_)
    rw [hdm1.1, hdm1.2, hbrev_even]
    congr 1
    · congr 1
      rw [hpow]
      ring
    · congr 1
      push_cast
      field_simp
      ring
  have hOdd : expI (thetaOf isign (2 * 2 ^ s)) ^ o2 * dftState isign b s x (p + 2 ^ s) =
      ∑ t ∈ Finset.range (2 ^ s),
        x ((2 * t + 1) * 2 ^ (b - s - 1) + bitrev (b - s - 1) b2) *
          expI (isign * (2 * Real.pi / ((2 * 2 ^ s : ℕ) : ℝ)) *
            (((2 * t + 1) * o2 : ℕ) : ℝ)) := by
    unfold dftState
    rw [expI_pow, Finset.mul_sum]
    refine Finset.sum_congr rfl (fun t _ => ?_)
    rw [hdm2.1, hdm2.2, hbrev_odd]
    rw [mul_comm (expI _) (x _ * expI _), mul_assoc, ← expI_add]
    congr 1
    · congr 1
      rw [hpow]
      ring
    · congr 1
      simp only [thetaOf]
      push_cast
      field_simp
      ring
  have hRHS : dftState isign b (s + 1) x p =
      ∑ u ∈ Finset.range (2 * 2 ^ s),
        x (u * 2 ^ (b - s - 1) + bitrev (b - s - 1) b2) *
          expI (isign * (2 * Real.pi / ((2 * 2 ^ s : ℕ) : ℝ)) * ((u * o2 : ℕ) : ℝ)) := by
    unfold dftState
    rw [h2S, hbs1, hdm3.1, hdm3.2]
  rw [hEven, hOdd, hRHS]
  exact (sum_range_two_mul (2 ^ s)
    (fun u => x (u * 2 ^ (b - s - 1) + bitrev (b - s - 1) b2) *
      expI (isign * (2 * Real.pi / ((2 * 2 ^ s : ℕ) : ℝ)) * ((u * o2 : ℕ) : ℝ)))).symm

/-- Merging step of the decimation-in-time recursion, upper half of a block:
for `p = b2·2S + S + o` with `o < S = 2^s`, the butterfly difference of the
two `S`-point sub-transforms equals coefficient `S + o` of the `2S`-point
transform (using `w^S = -1`). -/
theorem dftState_step_hi (isign : ℝ) (hsign : isign = 1 ∨ isign = -1) (b s : ℕ)
    (hs : s < b) (x : ℕ → ℂ) (b2 o : ℕ) (ho : o < 2 ^ s) (p : ℕ)
    (hpdef : p = b2 * (2 * 2 ^ s) + (2 ^ s + o)) :
    dftState isign b s x (p - 2 ^ s) - expI (thetaOf isign (2 * 2 ^ s)) ^ o *
        dftState isign b s x p
      = dftState isign b (s + 1) x p := by
  have hS0 : 0 < 2 ^ s := pow_pos (by norm_num) s
  have hSR : ((2 ^ s : ℕ) : ℝ) ≠ 0 := by
    exact_mod_cast hS0.ne'
  have hbs : b - s = (b - s - 1) + 1 := by omega
  have hbs1 : b - (s + 1) = b - s - 1 := by omega
  have hpow : (2 : ℕ) ^ (b - s) = 2 * 2 ^ (b - s - 1) := by
    conv_lhs => rw [hbs]
    rw [pow_succ]
    ring
  have h2S : (2 : ℕ) ^ (s + 1) = 2 * 2 ^ s := by
    rw [pow_succ]
    ring
  have hdm1 : p / 2 ^ s = 2 * b2 + 1 ∧ p % 2 ^ s = o := by
    have h : p = (2 * b2 + 1) * 2 ^ s + o := by rw [hpdef]; ring
    rw [h]
    exact block_div_mod hS0 _ _ ho
  have hdm2 : (p - 2 ^ s) / 2 ^ s = 2 * b2 ∧ (p - 2 ^ s) % 2 ^ s = o := by
    have h : p - 2 ^ s = (2 * b2) * 2 ^ s + o := by
      have e : (2 * b2) * 2 ^ s + 2 ^ s = (2 * b2 + 1) * 2 ^ s := by ring
      have h1 : p = (2 * b2 + 1) * 2 ^ s + o := by rw [hpdef]; ring
      omega
    rw [h]
    exact block_div_mod hS0 _ _ ho
  have hdm3 : p / (2 * 2 ^ s) = b2 ∧ p % (2 * 2 ^ s) = 2 ^ s + o := by
    rw [hpdef]
    exact block_div_mod (by omega) _ _ (by omega)
  have hbrev_even : bitrev (b - s) (2 * b2) = bitrev (b - s - 1) b2 := by
    conv_lhs => rw [hbs]
    exact bitrev_succ_even _ _
  have hbrev_odd : bitrev (b - s) (2 * b2 + 1) =
      2 ^ (b - s - 1) + bitrev (b - s - 1) b2 := by
    conv_lhs => rw [hbs]
    exact bitrev_succ_odd _ _
  have hone := expI_isign_two_pi hsign
  have hmone := expI_isign_pi hsign
  have hEven : dftState isign b s x (p - 2 ^ s) =
      ∑ t ∈ Finset.range (2 ^ s),
        x (2 * t * 2 ^ (b - s - 1) + bitrev (b - s - 1) b2) *
          expI (isign * (2 * Real.pi / ((2 * 2 ^ s : ℕ) : ℝ)) *
            ((2 * t * (2 ^ s + o) : ℕ) : ℝ)) := by
    unfold dftState
    refine Finset.sum_congr rfl (fun t _ => ?_)
    rw [hdm2.1, hdm2.2, hbrev_even]
    have hang : isign * (2 * Real.pi / ((2 * 2 ^ s : ℕ) : ℝ)) *
        ((2 * t * (2 ^ s + o) : ℕ) : ℝ) =
        isign * (2 * Real.pi / ((2 ^ s : ℕ) : ℝ)) * ((t * o : ℕ) : ℝ) +
          (t : ℝ) * (isign * (2 * Real.pi)) := by
      push_cast
      field_simp
      ring
    rw [hang, expI_add, ← expI_pow, hone, one_pow, mul_one]
    congr 2
    rw [hpow]
    ring
  have hOdd : (∑ t ∈ Finset.range (2 ^ s),
        x ((2 * t + 1) * 2 ^ (b - s - 1) + bitrev (b - s - 1) b2) *
          expI (isign * (2 * Real.pi / ((2 * 2 ^ s : ℕ) : ℝ)) *
            (((2 * t + 1) * (2 ^ s + o) : ℕ) : ℝ))) =
      -(expI (thetaOf isign (2 * 2 ^ s)) ^ o * dftState isign b s x p) := by
    unfold dftState
    rw [expI_pow, Finset.mul_sum, ← Finset.sum_neg_distrib]
    refine Finset.sum_congr rfl (fun t _ => ?_)
    rw [hdm1.1, hdm1.2, hbrev_odd]
    have hang : isign * (2 * Real.pi / ((2 * 2 ^ s : ℕ) : ℝ)) *
        (((2 * t + 1) * (2 ^ s + o) : ℕ) : ℝ) =
        ((o : ℕ) : ℝ) * thetaOf isign (2 * 2 ^ s) +
          isign * (2 * Real.pi / ((2 ^ s : ℕ) : ℝ)) * ((t * o : ℕ) : ℝ) +
          ((t : ℝ) * (isign * (2 * Real.pi)) + isign * Real.pi) := by
      simp only [thetaOf]
      push_cast
      field_simp
      ring
    rw [hang, expI_add, expI_add, expI_add, ← expI_pow, ← expI_pow, hone, one_pow, hmone]
    have hx : x ((2 * t + 1) * 2 ^ (b - s - 1) + bitrev (b - s - 1) b2) =
        x (t * 2 ^ (b - s) + (2 ^ (b - s - 1) + bitrev (b - s - 1) b2)) := by
      congr 1
      rw [hpow]
      ring
    rw [hx]
    ring
  have hRHS : dftState isign b (s + 1) x p =
      ∑ u ∈ Finset.range (2 * 2 ^ s),
        x (u * 2 ^ (b - s - 1) + bitrev (b - s - 1) b2) *
          expI (isign * (2 * Real.pi / ((2 * 2 ^ s : ℕ) : ℝ)) *
            ((u * (2 ^ s + o) : ℕ) : ℝ)) := by
    unfold dftState
    rw [h2S, hbs1, hdm3.1, hdm3.2]
  rw [sub_eq_add_neg, hEven, ← hOdd, hRHS]
  exact (sum_range_two_mul (2 ^ s)
    (fun u => x (u * 2 ^ (b - s - 1) + bitrev (b - s - 1) b2) *
      expI (isign * (2 * Real.pi / ((2 * 2 ^ s : ℕ) : ℝ)) *
        ((u * (2 ^ s + o) : ℕ) : ℝ)))).symm

theorem dlRun_zero (isign : ℝ) (nn mmax : ℕ) (d : List ℝ) :
    dlRun isign nn 0 mmax d = d := rfl

theorem dlRun_succ (isign : ℝ) (nn fuel mmax : ℕ) (d : List ℝ) :
    dlRun isign nn (fuel + 1) mmax d =
      if mmax < nn then dlRun isign nn fuel (2 * mmax) (stage isign nn mmax d) else d := rfl

theorem length_mFold (wpr wpi : ℝ) (mmax istep nn : ℕ) (l : List ℕ) (s : List ℝ × ℝ × ℝ) :
    ((l.foldl (mStep wpr wpi mmax istep nn) s).1).length = s.1.length := by
  induction l generalizing s with
  | nil => rfl
  | cons a t ih =>
    rw [List.foldl_cons, ih]
    show (innerLoop _ _ _ _ _ _ s.1).length = s.1.length
    exact length_innerLoop _ _ _ _ _ _ _

theorem length_stage (isign : ℝ) (nn mmax : ℕ) (d : List ℝ) :
    (stage isign nn mmax d).length = d.length := by
  simp only [stage]
  exact length_mFold _ _ _ _ _ _ (d, 1, 0)

theorem length_dlRun (isign : ℝ) (nn : ℕ) :
    ∀ (fuel mmax : ℕ) (d : List ℝ), (dlRun isign nn fuel mmax d).length = d.length := by
  intro fuel
  induction fuel with
  | zero => intro mmax d; rfl
  | succ fuel ih =>
    intro mmax d
    rw [dlRun_succ]
    by_cases h : mmax < nn
    · rw [if_pos h, ih, length_stage]
    · rw [if_neg h]

theorem cSample_eq_of_samplePair {d e : List ℝ} {p q : ℕ}
    (h : samplePair d p = samplePair e q) : cSample d p = cSample e q := by
  unfold samplePair at h
  rw [Prod.mk.injEq] at h
  unfold cSample
  rw [h.1, h.2]

/-- The stage loop transforms the `dftState` description at level `s` into the
one at level `b`: running the remaining `b - s` stages (with sufficient fuel)
computes all merging steps. -/
theorem dlRun_dftState (isign : ℝ) (hsign : isign = 1 ∨ isign = -1) (b : ℕ) (x : ℕ → ℂ) :
    ∀ (k s : ℕ), s + k = b →
      ∀ (d : List ℝ), d.length = 2 * 2 ^ b →
      (∀ p, p < 2 ^ b → cSample d p = dftState isign b s x p) →
      ∀ fuel, k ≤ fuel →
      ∀ p, p < 2 ^ b →
        cSample (dlRun isign (2 * 2 ^ b) fuel (2 * 2 ^ s) d) p = dftState isign b b x p := by
  intro k
  induction k with
  | zero =>
    intro s hsb d _ hchar fuel _ p hp
    have hsb' : s = b := by omega
    subst hsb'
    cases fuel with
    | zero => exact hchar p hp
    | succ fuel =>
      rw [dlRun_succ, if_neg (by omega)]
      exact hchar p hp
  | succ k ih =>
    intro s hsb d hlen hchar fuel hfuel p hp
    have hs : s < b := by omega
    have hpowlt : (2 : ℕ) ^ s < 2 ^ b := Nat.pow_lt_pow_right (by norm_num) hs
    have hS0 : (0 : ℕ) < 2 ^ s := pow_pos (by norm_num) s
    cases fuel with
    | zero => omega
    | succ fuel =>
      rw [dlRun_succ, if_pos (by omega)]
      have h2s1 : 2 * (2 * 2 ^ s) = 2 * 2 ^ (s + 1) := by rw [pow_succ]; ring
      rw [h2s1]
      have hdvd : 2 ^ b / (2 * 2 ^ s) * (2 * 2 ^ s) = 2 ^ b := by
        have e : 2 * 2 ^ s = 2 ^ (s + 1) := by rw [pow_succ]; ring
        rw [e]
        exact Nat.div_mul_cancel (pow_dvd_pow 2 (by omega))
      have hq1 : 1 ≤ 2 ^ b / (2 * 2 ^ s) := by
        rw [Nat.one_le_div_iff (by omega : 0 < 2 * 2 ^ s)]
        have e : 2 * 2 ^ s = 2 ^ (s + 1) := by rw [pow_succ]; ring
        rw [e]
        exact Nat.pow_le_pow_right (by norm_num) (by omega)
      apply ih (s + 1) (by omega) (stage isign (2 * 2 ^ b) (2 * 2 ^ s) d)
        (by rw [length_stage, hlen]) ?char fuel (by omega) p hp
      case char =>
        intro q hq
        rw [cSample_stage isign (2 ^ b) (2 ^ s) Nat.one_le_two_pow hdvd hq1 d hlen q hq]
        have hsplitq := Nat.div_add_mod q (2 * 2 ^ s)
        have hmodq : q % (2 * 2 ^ s) < 2 * 2 ^ s := Nat.mod_lt q (by omega)
        have hcommq : 2 * 2 ^ s * (q / (2 * 2 ^ s)) = q / (2 * 2 ^ s) * (2 * 2 ^ s) :=
          Nat.mul_comm _ _
        have hpdef : q = q / (2 * 2 ^ s) * (2 * 2 ^ s) + q % (2 * 2 ^ s) := by omega
        by_cases hlo : q % (2 * 2 ^ s) < 2 ^ s
        · have hblt : q / (2 * 2 ^ s) < 2 ^ b / (2 * 2 ^ s) := by
            rw [Nat.div_lt_iff_lt_mul (by omega : 0 < 2 * 2 ^ s)]
            omega
          have hmul2 : (q / (2 * 2 ^ s) + 1) * (2 * 2 ^ s) ≤
              2 ^ b / (2 * 2 ^ s) * (2 * 2 ^ s) := Nat.mul_le_mul_right _ (by omega)
          have hexp2 : (q / (2 * 2 ^ s) + 1) * (2 * 2 ^ s) =
              q / (2 * 2 ^ s) * (2 * 2 ^ s) + 2 * 2 ^ s := by ring
          have hqS : q + 2 ^ s < 2 ^ b := by omega
          rw [if_pos hlo, hchar q hq, hchar (q + 2 ^ s) hqS]
          exact dftState_step_lo isign b s hs x (q / (2 * 2 ^ s)) (q % (2 * 2 ^ s)) hlo
            q hpdef
        · have hqm : q - 2 ^ s < 2 ^ b := by omega
          rw [if_neg hlo, hchar (q - 2 ^ s) hqm, hchar q hq]
          refine dftState_step_hi isign hsign b s hs x (q / (2 * 2 ^ s))
            (q % (2 * 2 ^ s) - 2 ^ s) (by omega) q (by omega)

theorem dftState_zero (isign : ℝ) (b : ℕ) (x : ℕ → ℂ) (p : ℕ) :
    dftState isign b 0 x p = x (bitrev b p) := by
  unfold dftState
  simp [expI_zero]

theorem dftState_full (isign : ℝ) (b : ℕ) (x : ℕ → ℂ) (p : ℕ) (hp : p < 2 ^ b) :
    dftState isign b b x p =
      ∑ t ∈ Finset.range (2 ^ b),
        x t * expI (isign * (2 * Real.pi / ((2 ^ b : ℕ) : ℝ)) * ((t * p : ℕ) : ℝ)) := by
  unfold dftState
  rw [Nat.sub_self]
  refine Finset.sum_congr rfl (fun t _ => ?_)
  rw [Nat.div_eq_of_lt hp, Nat.mod_eq_of_lt hp]
  congr 2
  simp [bitrev]

/-- Full Danielson-Lanczos correctness: from the bit-reversed input, the stage
loop (with fuel at least `log2 n = b`) computes, at every sample `l`, the sum
`Σ_k x[k]·e^(isign·2π·k·l/n · i)`. -/
theorem dlRun_bitrev_dft (isign : ℝ) (hsign : isign = 1 ∨ isign = -1) (b : ℕ)
    (data : List ℝ) (hlen : data.length = 2 * 2 ^ b) (fuel : ℕ) (hfuel : b ≤ fuel)
    (l : ℕ) (hl : l < 2 ^ b) :
    cSample (dlRun isign (2 * 2 ^ b) fuel 2 (bitrevSection (2 ^ b) data)) l =
      ∑ k ∈ Finset.range (2 ^ b), cSample data k *
        expI (isign * (2 * Real.pi / ((2 ^ b : ℕ) : ℝ)) * ((k * l : ℕ) : ℝ)) := by
  have hchar : ∀ p, p < 2 ^ b → cSample (bitrevSection (2 ^ b) data) p =
      dftState isign b 0 (cSample data) p := by
    intro p hp
    rw [dftState_zero isign b _ p]
    exact cSample_eq_of_samplePair (bitrevSection_spec b (2 ^ b) rfl data hlen p hp)
  have hlen2 : (bitrevSection (2 ^ b) data).length = 2 * 2 ^ b := by
    rw [length_bitrevSection, hlen]
  have h := dlRun_dftState isign hsign b (cSample data) b 0 (by omega)
    (bitrevSection (2 ^ b) data) hlen2 hchar fuel hfuel l hl
  rw [show (2 : ℕ) * 2 ^ 0 = 2 by norm_num] at h
  rw [h, dftState_full isign b _ l hl]

theorem length_scaleFold (n : ℕ) (l : List ℕ) (d : List ℝ) :
    ((l.foldl (fun e j => e.set j (val e j * (n : ℝ))) d)).length = d.length := by
  induction l generalizing d with
  | nil => rfl
  | cons a t ih => rw [List.foldl_cons, ih, List.length_set]

theorem length_scaleLoop (n : ℕ) (d : List ℝ) : (scaleLoop n d).length = d.length := by
  unfold scaleLoop
  exact length_scaleFold n _ d

theorem val_scaleFold (n : ℕ) :
    ∀ (cnt t0 : ℕ) (d : List ℝ), t0 + cnt ≤ d.length →
      ∀ i, val ((List.range' t0 cnt).foldl (fun e j => e.set j (val e j * (n : ℝ))) d) i =
        if t0 ≤ i ∧ i < t0 + cnt then val d i * n else val d i := by
  intro cnt
  induction cnt with
  | zero =>
    intro t0 d _ i
    rw [if_neg (by omega)]
    rfl
  | succ cnt ih =>
    intro t0 d hb i
    rw [List.range'_succ, List.foldl_cons]
    have hlen1 : (d.set t0 (val d t0 * (n : ℝ))).length = d.length := List.length_set d _ _
    rw [ih (t0 + 1) (d.set t0 (val d t0 * (n : ℝ))) (by omega) i]
    by_cases h1 : t0 + 1 ≤ i ∧ i < t0 + 1 + cnt
    · rw [if_pos h1, if_pos (show t0 ≤ i ∧ i < t0 + (cnt + 1) by omega),
        val_set_other _ (by omega)]
    · rw [if_neg h1]
      by_cases h2 : i = t0
      · subst h2
        rw [if_pos (show i ≤ i ∧ i < i + (cnt + 1) by omega),
          val_set_self _ (by omega)]
      · rw [if_neg (show ¬ (t0 ≤ i ∧ i < t0 + (cnt + 1)) by omega),
          val_set_other _ (fun h => h2 h.symm)]

/-- The fix-up loop multiplies entries `0 ≤ i < n` by `n` and leaves entries
`i ≥ n` untouched. -/
theorem val_scaleLoop (n : ℕ) (d : List ℝ) (hn : n ≤ d.length) (i : ℕ) :
    val (scaleLoop n d) i = if i < n then val d i * n else val d i := by
  unfold scaleLoop
  rw [List.range_eq_range', val_scaleFold n n 0 d (by omega) i]
  by_cases h : i < n
  · rw [if_pos ⟨Nat.zero_le _, by omega⟩, if_pos h]
  · rw [if_neg (by omega), if_neg h]

/-- The forward call on a valid input returns the raw Danielson-Lanczos
output (no scaling). -/
theorem fourier_forward_eq (data : List ℝ) (h : ValidInput data.length) :
    (FourierTransLL data false).2 =
      dlRun (-1) (2 * (data.length / 2)) (2 * (data.length / 2)) 2
        (bitrevSection (data.length / 2) data) := by
  rw [fourier_ok_of_valid h]
  rfl

/-- The inverse call on a valid input returns the Danielson-Lanczos output
passed through the fix-up loop. -/
theorem fourier_inverse_eq (data : List ℝ) (h : ValidInput data.length) :
    (FourierTransLL data true).2 =
      scaleLoop (data.length / 2)
        (dlRun 1 (2 * (data.length / 2)) (2 * (data.length / 2)) 2
          (bitrevSection (data.length / 2) data)) := by
  rw [fourier_ok_of_valid h]
  rfl

theorem validInput_of_pow (b : ℕ) (hb : 1 ≤ b) (len : ℕ) (hlen : len = 2 * 2 ^ b) :
    ValidInput len := by
  have h2 : (2 : ℕ) ≤ 2 ^ b := by
    calc (2 : ℕ) = 2 ^ 1 := by norm_num
    _ ≤ 2 ^ b := Nat.pow_le_pow_right (by norm_num) hb
  exact ⟨by omega, by omega, b, by omega⟩

/-- The forward transform computes `X[l] = Σ_k x[k]·e^(-2π·k·l/n · i)`. -/
theorem fourier_forward_dft (b : ℕ) (hb : 1 ≤ b) (data : List ℝ)
    (hlen : data.length = 2 * 2 ^ b) (l : ℕ) (hl : l < 2 ^ b) :
    cSample ((FourierTransLL data false).2) l =
      ∑ k ∈ Finset.range (2 ^ b), cSample data k *
        expI (-(2 * Real.pi * ((k * l : ℕ) : ℝ) / ((2 ^ b : ℕ) : ℝ))) := by
  have hv : ValidInput data.length := validInput_of_pow b hb _ hlen
  have hn2 : data.length / 2 = 2 ^ b := by omega
  rw [fourier_forward_eq data hv, hn2]
  have hfuel : b ≤ 2 * 2 ^ b := by
    have := Nat.lt_two_pow b
    omega
  rw [dlRun_bitrev_dft (-1) (Or.inr rfl) b data hlen (2 * 2 ^ b) hfuel l hl]
  refine Finset.sum_congr rfl (fun k _ => ?_)
  congr 1
  congr 1
  ring

/-- The inverse transform's butterfly section computes
`Y[l] = Σ_k x[k]·e^(+2π·k·l/n · i)`; the returned array is that result with
its first `n` real entries multiplied by `n`. -/
theorem fourier_inverse_dft (b : ℕ) (_hb : 1 ≤ b) (data : List ℝ)
    (hlen : data.length = 2 * 2 ^ b) (l : ℕ) (hl : l < 2 ^ b) :
    cSample (dlRun 1 (2 * 2 ^ b) (2 * 2 ^ b) 2 (bitrevSection (2 ^ b) data)) l =
      ∑ k ∈ Finset.range (2 ^ b), cSample data k *
        expI (2 * Real.pi * ((k * l : ℕ) : ℝ) / ((2 ^ b : ℕ) : ℝ)) := by
  have hfuel : b ≤ 2 * 2 ^ b := by
    have := Nat.lt_two_pow b
    omega
  rw [dlRun_bitrev_dft 1 (Or.inl rfl) b data hlen (2 * 2 ^ b) hfuel l hl]
  refine Finset.sum_congr rfl (fun k _ => ?_)
  congr 1
  congr 1
  ring

theorem cSample_re (d : List ℝ) (p : ℕ) : (cSample d p).re = val d (2 * p) := by
  unfold cSample
  simp

theorem cSample_im (d : List ℝ) (p : ℕ) : (cSample d p).im = val d (2 * p + 1) := by
  unfold cSample
  simp

theorem expI_conj (c : ℝ) : (starRingEnd ℂ) (expI c) = expI (-c) := by
  unfold expI
  rw [← Complex.exp_conj]
  congr 1
  rw [map_mul, Complex.conj_I, Complex.conj_ofReal]
  push_cast
  ring

theorem length_fourier (data : List ℝ) (inverse : Bool) :
    ((FourierTransLL data inverse).2).length = data.length := by
  by_cases h1 : data.length < 4 ∨ data.length % 2 = 1
  · rw [fourier_error_of_invalidLength h1]
  · by_cases h2 : ∃ k : ℕ, data.length / 2 = 2 ^ k
    · have hv : ValidInput data.length := ⟨by omega, by omega, h2⟩
      cases inverse
      · rw [fourier_forward_eq data hv, length_dlRun, length_bitrevSection]
      · rw [fourier_inverse_eq data hv, length_scaleLoop, length_dlRun,
          length_bitrevSection]
    · rw [fourier_error_of_notPowerOfTwo h1 h2]

theorem val_map (f : ℝ → ℝ) (l : List ℝ) (i : ℕ) (h : i < l.length) :
    val (l.map f) i = f (val l i) := by
  unfold val
  rw [List.getD_eq_getElem _ _ (by simpa using h), List.getD_eq_getElem _ _ h,
    List.getElem_map]

/-- Reconstruct a length-4 array from its two complex samples. -/
theorem list4_of_cSample {d : List ℝ} {a b c e : ℝ} (hlen : d.length = 4)
    (h0 : cSample d 0 = (a : ℂ) + (b : ℂ) * Complex.I)
    (h1 : cSample d 1 = (c : ℂ) + (e : ℂ) * Complex.I) :
    d = [a, b, c, e] := by
  have r0 : val d 0 = a := by
    have := congrArg Complex.re h0
    rw [cSample_re] at this
    simpa using this
  have r1 : val d 1 = b := by
    have := congrArg Complex.im h0
    rw [cSample_im] at this
    simpa using this
  have r2 : val d 2 = c := by
    have := congrArg Complex.re h1
    rw [cSample_re] at this
    simpa using this
  have r3 : val d 3 = e := by
    have := congrArg Complex.im h1
    rw [cSample_im] at this
    simpa using this
  have hv : ∀ i, i < 4 → val d i = val [a, b, c, e] i := by
    intro i hi
    interval_cases i
    · simpa [val] using r0
    · simpa [val] using r1
    · simpa [val] using r2
    · simpa [val] using r3
  apply List.ext_getElem (by rw [hlen]; rfl)
  intro i hd he
  have hi : i < 4 := by omega
  have := hv i hi
  rwa [val, val, List.getD_eq_getElem _ _ hd, List.getD_eq_getElem _ _ he] at this

theorem dlRunCount_zero (nn mmax : ℕ) : dlRunCount nn 0 mmax = 0 := rfl

theorem dlRunCount_succ (nn fuel mmax : ℕ) :
    dlRunCount nn (fuel + 1) mmax =
      if mmax < nn then dlRunCount nn fuel (2 * mmax) + 1 else 0 := rfl

/-- The outer stage loop runs for exactly the remaining number of stages and
then stops: its result does not depend on any extra fuel. -/
theorem dlRun_count_exact (b : ℕ) :
    ∀ (k s : ℕ), s + k = b → ∀ fuel, k ≤ fuel →
      dlRunCount (2 ^ (b + 1)) fuel (2 ^ (s + 1)) = k ∧
      ∀ (isign : ℝ) (d : List ℝ),
        dlRun isign (2 ^ (b + 1)) fuel (2 ^ (s + 1)) d =
          dlRun isign (2 ^ (b + 1)) k (2 ^ (s + 1)) d := by
  intro k
  induction k with
  | zero =>
    intro s hsb fuel _
    have hsb' : s = b := by omega
    subst hsb'
    cases fuel with
    | zero => exact ⟨rfl, fun isign d => rfl⟩
    | succ fuel =>
      constructor
      · rw [dlRunCount_succ, if_neg (by omega)]
      · intro isign d
        rw [dlRun_succ, if_neg (by omega), dlRun_zero]
  | succ k ih =>
    intro s hsb fuel hfuel
    have hs : s < b := by omega
    have hlt : (2 : ℕ) ^ (s + 1) < 2 ^ (b + 1) :=
      Nat.pow_lt_pow_right (by norm_num) (by omega)
    cases fuel with
    | zero => omega
    | succ fuel =>
      have h2 : 2 * 2 ^ (s + 1) = 2 ^ (s + 1 + 1) := by
        rw [pow_succ]
        ring
      constructor
      · rw [dlRunCount_succ, if_pos hlt, h2,
          (ih (s + 1) (by omega) fuel (by omega)).1]
      · intro isign d
        rw [dlRun_succ, if_pos hlt, dlRun_succ, if_pos hlt, h2,
          (ih (s + 1) (by omega) fuel (by omega)).2]

theorem sum_range_two (f : ℕ → ℂ) : ∑ k ∈ Finset.range 2, f k = f 0 + f 1 := by
  rw [Finset.sum_range_succ, Finset.sum_range_one]

theorem expI_neg_pi : expI (-Real.pi) = -1 := by
  rw [expI_neg, expI_pi]
  norm_num

theorem cSample_cons4 (a b c e : ℝ) :
    cSample [a, b, c, e] 0 = (a : ℂ) + (b : ℂ) * Complex.I ∧
      cSample [a, b, c, e] 1 = (c : ℂ) + (e : ℂ) * Complex.I :=
  ⟨rfl, rfl⟩

theorem list4_of_val {d : List ℝ} {a b c e : ℝ} (hlen : d.length = 4)
    (h0 : val d 0 = a) (h1 : val d 1 = b) (h2 : val d 2 = c) (h3 : val d 3 = e) :
    d = [a, b, c, e] := by
  have hv : ∀ i, i < 4 → val d i = val [a, b, c, e] i := by
    intro i hi
    interval_cases i
    · simpa [val] using h0
    · simpa [val] using h1
    · simpa [val] using h2
    · simpa [val] using h3
  apply List.ext_getElem (by rw [hlen]; rfl)
  intro i hd he
  have hi : i < 4 := by omega
  have := hv i hi
  rwa [val, val, List.getD_eq_getElem _ _ hd, List.getD_eq_getElem _ _ he] at this

theorem val_impulse (m : ℕ) (i : ℕ) :
    val ((1 : ℝ) :: List.replicate m 0) i = if i = 0 then 1 else 0 := by
  cases i with
  | zero => rfl
  | succ i =>
    rw [if_neg (by omega)]
    show (List.replicate m (0 : ℝ)).getD i 0 = 0
    rw [List.getD, List.get?_eq_getElem?, List.getElem?_replicate]
    by_cases h : i < m
    · rw [if_pos h]
      rfl
    · rw [if_neg h]
      rfl

theorem cSample_impulse (m k : ℕ) :
    cSample ((1 : ℝ) :: List.replicate m 0) k = if k = 0 then 1 else 0 := by
  unfold cSample
  rw [val_impulse, val_impulse, if_neg (show ¬ (2 * k + 1 = 0) by omega)]
  by_cases h : k = 0
  · subst h
    rw [if_pos (by norm_num), if_pos rfl]
    norm_num
  · rw [if_neg (show ¬ (2 * k = 0) by omega), if_neg h]
    norm_num

/-! ## Claim theorems for the Danielson-Lanczos section -/

/-- C6: for every valid power-of-two size `n = 2^b`, the forward transform of
the unit impulse `[1,0,0,…,0]` succeeds and produces `[1,0,1,0,…,1,0]`:
every complex sample of the output is `(1, 0)`. -/
theorem fourier_impulse_response (b : ℕ) (hb : 1 ≤ b) :
    (FourierTransLL ((1 : ℝ) :: List.replicate (2 * 2 ^ b - 1) 0) false).1 = none ∧
    ((FourierTransLL ((1 : ℝ) :: List.replicate (2 * 2 ^ b - 1) 0) false).2).length =
      2 * 2 ^ b ∧
    ∀ i, i < 2 * 2 ^ b →
      val ((FourierTransLL ((1 : ℝ) :: List.replicate (2 * 2 ^ b - 1) 0) false).2) i =
        if i % 2 = 0 then 1 else 0 := by
  have hS0 : (0 : ℕ) < 2 ^ b := pow_pos (by norm_num) b
  have hlen : ((1 : ℝ) :: List.replicate (2 * 2 ^ b - 1) 0).length = 2 * 2 ^ b := by
    simp only [List.length_cons, List.length_replicate]
    omega
  have hv : ValidInput ((1 : ℝ) :: List.replicate (2 * 2 ^ b - 1) 0).length :=
    validInput_of_pow b hb _ hlen
  have hsample : ∀ l, l < 2 ^ b →
      cSample ((FourierTransLL ((1 : ℝ) :: List.replicate (2 * 2 ^ b - 1) 0) false).2) l
        = 1 := by
    intro l hl
    rw [fourier_forward_dft b hb _ hlen l hl]
    rw [Finset.sum_eq_single_of_mem 0 (Finset.mem_range.mpr hS0)]
    · rw [cSample_impulse, if_pos rfl,
        show -(2 * Real.pi * ((0 * l : ℕ) : ℝ) / ((2 ^ b : ℕ) : ℝ)) = 0 by push_cast; ring,
        expI_zero, one_mul]
    · intro t _ ht
      rw [cSample_impulse, if_neg ht, zero_mul]
  refine ⟨?_, by rw [length_fourier, hlen], ?_⟩
  · rw [fourier_ok_of_valid hv]
    rfl
  · intro i hi
    have hl : i / 2 < 2 ^ b := by omega
    have hs := hsample (i / 2) hl
    by_cases hpar : i % 2 = 0
    · rw [if_pos hpar]
      have := congrArg Complex.re hs
      rw [cSample_re] at this
      rw [show 2 * (i / 2) = i by omega] at this
      simpa using this
    · rw [if_neg hpar]
      have := congrArg Complex.im hs
      rw [cSample_im] at this
      rw [show 2 * (i / 2) + 1 = i by omega] at this
      simpa using this

/-- Witness for C6 at `b = 1` (`n = 2`). -/
theorem fourier_impulse_response_witness :
    (FourierTransLL ((1 : ℝ) :: List.replicate (2 * 2 ^ 1 - 1) 0) false).1 = none ∧
    ((FourierTransLL ((1 : ℝ) :: List.replicate (2 * 2 ^ 1 - 1) 0) false).2).length =
      2 * 2 ^ 1 ∧
    ∀ i, i < 2 * 2 ^ 1 →
      val ((FourierTransLL ((1 : ℝ) :: List.replicate (2 * 2 ^ 1 - 1) 0) false).2) i =
        if i % 2 = 0 then 1 else 0 :=
  fourier_impulse_response 1 (le_refl 1)

/-- C7: the forward transform uses exponent sign `-1` (`theta = -2π/mmax` at
every stage) and the inverse uses `+1`; consequently the forward call computes
`X[l] = Σ_k x[k]·e^(-i·2π·k·l/n)`. -/
theorem fourier_sign_convention :
    (∀ mmax : ℕ, thetaOf (isignOf false) mmax = -(2 * Real.pi / (mmax : ℝ)) ∧
      thetaOf (isignOf true) mmax = 2 * Real.pi / (mmax : ℝ)) ∧
    ∀ b : ℕ, 1 ≤ b → ∀ data : List ℝ, data.length = 2 * 2 ^ b →
      ∀ l, l < 2 ^ b →
        cSample ((FourierTransLL data false).2) l =
          ∑ k ∈ Finset.range (2 ^ b), cSample data k *
            expI (-(2 * Real.pi * ((k * l : ℕ) : ℝ) / ((2 ^ b : ℕ) : ℝ))) := by
  constructor
  · intro mmax
    constructor
    · rw [show isignOf false = -1 from rfl]
      simp only [thetaOf]
      ring
    · rw [show isignOf true = 1 from rfl]
      simp only [thetaOf]
      ring
  · intro b hb data hlen l hl
    exact fourier_forward_dft b hb data hlen l hl

/-- C8: a real-valued input (all imaginary parts zero) produces a
conjugate-symmetric spectrum: `X[n-k] = conj X[k]` for `1 ≤ k < n`. -/
theorem fourier_real_conjugate_symmetry (b : ℕ) (hb : 1 ≤ b) (data : List ℝ)
    (hlen : data.length = 2 * 2 ^ b)
    (hreal : ∀ k, k < 2 ^ b → val data (2 * k + 1) = 0)
    (k : ℕ) (hk1 : 1 ≤ k) (hk : k < 2 ^ b) :
    cSample ((FourierTransLL data false).2) (2 ^ b - k) =
      (starRingEnd ℂ) (cSample ((FourierTransLL data false).2) k) := by
  rw [fourier_forward_dft b hb data hlen (2 ^ b - k) (by omega),
    fourier_forward_dft b hb data hlen k hk, map_sum]
  refine Finset.sum_congr rfl (fun t ht => ?_)
  have htn : t < 2 ^ b := Finset.mem_range.mp ht
  rw [map_mul, expI_conj, neg_neg]
  have hconj : (starRingEnd ℂ) (cSample data t) = cSample data t := by
    unfold cSample
    rw [hreal t htn]
    push_cast
    simp
  rw [hconj]
  congr 1
  have hne : ((2 ^ b : ℕ) : ℝ) ≠ 0 := by
    exact_mod_cast (pow_pos (by norm_num : (0 : ℕ) < 2) b).ne'
  have hang : -(2 * Real.pi * ((t * (2 ^ b - k) : ℕ) : ℝ) / ((2 ^ b : ℕ) : ℝ)) =
      2 * Real.pi * ((t * k : ℕ) : ℝ) / ((2 ^ b : ℕ) : ℝ) +
        (t : ℝ) * (-(2 * Real.pi)) := by
    have hcast : ((t * (2 ^ b - k) : ℕ) : ℝ) =
        (t : ℝ) * ((2 ^ b : ℕ) : ℝ) - (t : ℝ) * (k : ℝ) := by
      push_cast [Nat.cast_sub (le_of_lt hk)]
      ring
    rw [hcast]
    field_simp
    ring
  rw [hang, expI_add, ← expI_pow]
  have h1 : expI (-(2 * Real.pi)) = 1 := by
    rw [expI_neg, expI_two_pi]
    norm_num
  rw [h1, one_pow, mul_one]

/-- Witness for C8 at `b = 1`, `data = [5, 0, 7, 0]`, `k = 1`. -/
theorem fourier_real_conjugate_symmetry_witness :
    cSample ((FourierTransLL [5, 0, 7, 0] false).2) (2 ^ 1 - 1) =
      (starRingEnd ℂ) (cSample ((FourierTransLL [5, 0, 7, 0] false).2) 1) :=
  fourier_real_conjugate_symmetry 1 (le_refl 1) [5, 0, 7, 0] (by norm_num)
    (by
      intro k hk
      interval_cases k
      · rfl
      · rfl)
    1 (le_refl 1) (by norm_num)

/-- C9: the stage loop terminates: its iteration count is exactly `log2 n = b`
(independent of any extra fuel), the fuel passed by `FourierTransLL` (`2n`) is
sufficient, `mmax` takes the values `2^(t+1)` (that is `2, 4, …, n`) all below
`2n` and stops at `2^(b+1) = 2n`, and every step of the carry loop in the
bit-reversal section strictly decreases `m`, so it always exits. -/
theorem fourier_stage_loop_terminates (b : ℕ) (_hb : 1 ≤ b) (isign : ℝ) (d : List ℝ) :
    (∀ fuel, b ≤ fuel → dlRunCount (2 * 2 ^ b) fuel 2 = b) ∧
    (∀ fuel, b ≤ fuel →
      dlRun isign (2 * 2 ^ b) fuel 2 d = dlRun isign (2 * 2 ^ b) b 2 d) ∧
    b ≤ 2 * 2 ^ b ∧
    (∀ t, t < b → 2 ^ (t + 1) < 2 * 2 ^ b) ∧
    2 ^ (b + 1) = 2 * 2 ^ b ∧
    (∀ j m, 2 ≤ m → m < j →
      carryUpdate j m = carryUpdate (j - m) (m / 2) ∧ m / 2 < m) := by
  have hpow : (2 : ℕ) ^ (b + 1) = 2 * 2 ^ b := by
    rw [pow_succ]
    ring
  have hq : ∀ fuel, b ≤ fuel →
      dlRunCount (2 ^ (b + 1)) fuel (2 ^ (0 + 1)) = b ∧
      ∀ (isign' : ℝ) (d' : List ℝ),
        dlRun isign' (2 ^ (b + 1)) fuel (2 ^ (0 + 1)) d' =
          dlRun isign' (2 ^ (b + 1)) b (2 ^ (0 + 1)) d' :=
    fun fuel hf => dlRun_count_exact b b 0 (by omega) fuel hf
  refine ⟨?_, ?_, ?_, ?_, hpow, ?_⟩
  · intro fuel hf
    have h := (hq fuel hf).1
    rwa [hpow, show (2 : ℕ) ^ (0 + 1) = 2 by norm_num] at h
  · intro fuel hf
    have h := (hq fuel hf).2 isign d
    rwa [hpow, show (2 : ℕ) ^ (0 + 1) = 2 by norm_num] at h
  · have := Nat.lt_two_pow b
    omega
  · intro t ht
    have h := Nat.pow_lt_pow_right (by norm_num : 1 < 2) (show t + 1 < b + 1 by omega)
    omega
  · intro j m h2 hj
    exact ⟨carryUpdate_go h2 hj, Nat.div_lt_self (by omega) (by omega)⟩

/-- Witness for C9 at `b = 1`, `isign = 1`, `d = [1, 2, 3, 4]`. -/
theorem fourier_stage_loop_terminates_witness :
    (∀ fuel, 1 ≤ fuel → dlRunCount (2 * 2 ^ 1) fuel 2 = 1) ∧
    (∀ fuel, 1 ≤ fuel →
      dlRun 1 (2 * 2 ^ 1) fuel 2 [1, 2, 3, 4] = dlRun 1 (2 * 2 ^ 1) 1 2 [1, 2, 3, 4]) ∧
    1 ≤ 2 * 2 ^ 1 ∧
    (∀ t, t < 1 → 2 ^ (t + 1) < 2 * 2 ^ 1) ∧
    2 ^ (1 + 1) = 2 * 2 ^ 1 ∧
    (∀ j m, 2 ≤ m → m < j →
      carryUpdate j m = carryUpdate (j - m) (m / 2) ∧ m / 2 < m) :=
  fourier_stage_loop_terminates 1 (le_refl 1) 1 [1, 2, 3, 4]

/-- Witness for C7's transform formula at `b = 1`, `data = [1,2,3,4]`, `l = 0`. -/
theorem fourier_sign_convention_witness :
    thetaOf (isignOf false) 2 = -(2 * Real.pi / ((2 : ℕ) : ℝ)) ∧
      cSample ((FourierTransLL [1, 2, 3, 4] false).2) 0 =
        ∑ k ∈ Finset.range (2 ^ 1), cSample [1, 2, 3, 4] k *
          expI (-(2 * Real.pi * ((k * 0 : ℕ) : ℝ) / ((2 ^ 1 : ℕ) : ℝ))) :=
  ⟨(fourier_sign_convention.1 2).1,
   fourier_sign_convention.2 1 (le_refl 1) [1, 2, 3, 4] (by norm_num) 0 (by norm_num)⟩

/-! ## Concrete evaluations of the transform at size n = 2 -/

/-- Concrete forward transform: `[1,2,3,4] ↦ [4,6,-2,-2]`
(`X[0] = x[0]+x[1]`, `X[1] = x[0]-x[1]`). -/
theorem fourier_forward_1234 : (FourierTransLL [1, 2, 3, 4] false).2 = [4, 6, -2, -2] := by
  have hlen : ([1, 2, 3, 4] : List ℝ).length = 2 * 2 ^ 1 := by norm_num
  have h0 := fourier_forward_dft 1 (le_refl 1) [1, 2, 3, 4] hlen 0 (by norm_num)
  have h1 := fourier_forward_dft 1 (le_refl 1) [1, 2, 3, 4] hlen 1 (by norm_num)
  rw [show Finset.range (2 ^ 1) = Finset.range 2 by norm_num] at h0 h1
  rw [sum_range_two] at h0 h1
  rw [show -(2 * Real.pi * ((0 * 0 : ℕ) : ℝ) / ((2 ^ 1 : ℕ) : ℝ)) = 0 by push_cast; ring,
    expI_zero, (cSample_cons4 1 2 3 4).1, (cSample_cons4 1 2 3 4).2] at h0
  rw [show -(2 * Real.pi * ((0 * 1 : ℕ) : ℝ) / ((2 ^ 1 : ℕ) : ℝ)) = 0 by push_cast; ring,
    show -(2 * Real.pi * ((1 * 1 : ℕ) : ℝ) / ((2 ^ 1 : ℕ) : ℝ)) = -Real.pi by
      push_cast; ring,
    expI_zero, expI_neg_pi, (cSample_cons4 1 2 3 4).1, (cSample_cons4 1 2 3 4).2] at h1
  refine list4_of_cSample (by rw [length_fourier]; norm_num) ?_ ?_
  · rw [h0]
    push_cast
    ring
  · rw [h1]
    push_cast
    ring

/-- Concrete inverse butterfly output for `[4,6,-2,-2]`: samples `(2,4)` and
`(6,8)` (before the fix-up loop). -/
theorem dlRun_inverse_4622 :
    dlRun 1 (2 * 2 ^ 1) (2 * 2 ^ 1) 2 (bitrevSection (2 ^ 1) [4, 6, -2, -2]) =
      [2, 4, 6, 8] := by
  have hlen : ([4, 6, -2, -2] : List ℝ).length = 2 * 2 ^ 1 := by norm_num
  have h0 := fourier_inverse_dft 1 (le_refl 1) [4, 6, -2, -2] hlen 0 (by norm_num)
  have h1 := fourier_inverse_dft 1 (le_refl 1) [4, 6, -2, -2] hlen 1 (by norm_num)
  rw [show Finset.range (2 ^ 1) = Finset.range 2 by norm_num] at h0 h1
  rw [sum_range_two] at h0 h1
  rw [show (2 * Real.pi * ((0 * 0 : ℕ) : ℝ) / ((2 ^ 1 : ℕ) : ℝ)) = 0 by push_cast; ring,
    expI_zero, (cSample_cons4 4 6 (-2) (-2)).1, (cSample_cons4 4 6 (-2) (-2)).2] at h0
  rw [show (2 * Real.pi * ((0 * 1 : ℕ) : ℝ) / ((2 ^ 1 : ℕ) : ℝ)) = 0 by push_cast; ring,
    show (2 * Real.pi * ((1 * 1 : ℕ) : ℝ) / ((2 ^ 1 : ℕ) : ℝ)) = Real.pi by
      push_cast; ring,
    expI_zero, expI_pi, (cSample_cons4 4 6 (-2) (-2)).1,
    (cSample_cons4 4 6 (-2) (-2)).2] at h1
  refine list4_of_cSample
    (by rw [length_dlRun, length_bitrevSection]; norm_num) ?_ ?_
  · rw [h0]
    push_cast
    ring
  · rw [h1]
    push_cast
    ring

/-- Concrete inverse transform: `[4,6,-2,-2] ↦ [4,8,6,8]` — only the first
`n = 2` entries of the butterfly output `[2,4,6,8]` get multiplied by `n`. -/
theorem fourier_inverse_4622 : (FourierTransLL [4, 6, -2, -2] true).2 = [4, 8, 6, 8] := by
  have hlen4 : ([4, 6, -2, -2] : List ℝ).length = 2 * 2 ^ 1 := by norm_num
  have hv : ValidInput ([4, 6, -2, -2] : List ℝ).length :=
    validInput_of_pow 1 (le_refl 1) _ hlen4
  rw [fourier_inverse_eq [4, 6, -2, -2] hv]
  have he2 : ([4, 6, -2, -2] : List ℝ).length / 2 = 2 ^ 1 := by norm_num
  rw [he2, dlRun_inverse_4622]
  have hd : scaleLoop (2 ^ 1) [2, 4, 6, 8] = [4, 8, 6, 8] := by
    have hn : (2 : ℕ) ^ 1 ≤ ([2, 4, 6, 8] : List ℝ).length := by norm_num
    refine list4_of_val (by rw [length_scaleLoop]; rfl) ?_ ?_ ?_ ?_ <;>
      rw [val_scaleLoop _ _ hn]
    · rw [if_pos (by norm_num)]
      show (2 : ℝ) * ((2 ^ 1 : ℕ) : ℝ) = 4
      push_cast
      ring
    · rw [if_pos (by norm_num)]
      show (4 : ℝ) * ((2 ^ 1 : ℕ) : ℝ) = 8
      push_cast
      ring
    · rw [if_neg (by norm_num)]
      rfl
    · rw [if_neg (by norm_num)]
      rfl
  rw [hd]

/-- C5 (failing input for the round-trip law): the forward-then-inverse
round trip on `x = [1,2,3,4]` yields `[4,8,6,8]`, which is not `x` scaled by
any single uniform factor (it would have to be both `4` and `2`). -/
theorem fourier_roundtrip_not_uniform :
    (FourierTransLL ((FourierTransLL [1, 2, 3, 4] false).2) true).2 = [4, 8, 6, 8] ∧
    ∀ c : ℝ, ([1, 2, 3, 4] : List ℝ).map (fun x => c * x) ≠ [4, 8, 6, 8] := by
  constructor
  · rw [fourier_forward_1234, fourier_inverse_4622]
  · intro c h
    simp only [List.map_cons, List.map_nil, List.cons.injEq] at h
    obtain ⟨h1, h2, h3, -⟩ := h
    nlinarith [h1, h3]

/-- C1 (amended): on a valid input, the inverse-direction call multiplies only
the FIRST `n` of the `2n` real entries of the butterfly output by `n`,
leaving entries `n … 2n-1` unscaled; the forward-direction call applies no
scaling at all. -/
theorem fourier_inverse_scaling (data : List ℝ) (h : ValidInput data.length) :
    (∀ i, val ((FourierTransLL data true).2) i =
      (if i < data.length / 2 then
        val (dlRun 1 (2 * (data.length / 2)) (2 * (data.length / 2)) 2
          (bitrevSection (data.length / 2) data)) i * ((data.length / 2 : ℕ) : ℝ)
      else
        val (dlRun 1 (2 * (data.length / 2)) (2 * (data.length / 2)) 2
          (bitrevSection (data.length / 2) data)) i)) ∧
    (FourierTransLL data false).2 =
      dlRun (-1) (2 * (data.length / 2)) (2 * (data.length / 2)) 2
        (bitrevSection (data.length / 2) data) := by
  refine ⟨fun i => ?_, fourier_forward_eq data h⟩
  have hn' : data.length / 2 ≤
      (dlRun 1 (2 * (data.length / 2)) (2 * (data.length / 2)) 2
        (bitrevSection (data.length / 2) data)).length := by
    rw [length_dlRun, length_bitrevSection]
    omega
  rw [fourier_inverse_eq data h, val_scaleLoop _ _ hn' i]

/-- Witness for C1's amended statement at `data = [4, 6, -2, -2]`, `i = 2`. -/
theorem fourier_inverse_scaling_witness :
    ValidInput ([4, 6, -2, -2] : List ℝ).length ∧
    val ((FourierTransLL [4, 6, -2, -2] true).2) 2 =
      (if 2 < ([4, 6, -2, -2] : List ℝ).length / 2 then
        val (dlRun 1 (2 * (([4, 6, -2, -2] : List ℝ).length / 2))
          (2 * (([4, 6, -2, -2] : List ℝ).length / 2)) 2
          (bitrevSection (([4, 6, -2, -2] : List ℝ).length / 2) [4, 6, -2, -2])) 2 *
            (((([4, 6, -2, -2] : List ℝ).length / 2 : ℕ)) : ℝ)
      else
        val (dlRun 1 (2 * (([4, 6, -2, -2] : List ℝ).length / 2))
          (2 * (([4, 6, -2, -2] : List ℝ).length / 2)) 2
          (bitrevSection (([4, 6, -2, -2] : List ℝ).length / 2) [4, 6, -2, -2])) 2) := by
  have hv : ValidInput ([4, 6, -2, -2] : List ℝ).length :=
    validInput_of_pow 1 (le_refl 1) _ (by norm_num)
  exact ⟨hv, (fourier_inverse_scaling [4, 6, -2, -2] hv).1 2⟩

/-- C1 counterexample: on the valid input `[0,0,1,0]` the inverse call does
NOT multiply every one of the `2n` entries of the butterfly output by `n`:
the result differs from `n · (butterfly output)` (which would be
`[2,0,-2,0]`, while the code returns `[2,0,-1,0]`). -/
theorem fourier_inverse_scaling_counterexample :
    (FourierTransLL [0, 0, 1, 0] true).2 ≠
      (dlRun 1 (2 * (([0, 0, 1, 0] : List ℝ).length / 2))
        (2 * (([0, 0, 1, 0] : List ℝ).length / 2)) 2
        (bitrevSection (([0, 0, 1, 0] : List ℝ).length / 2) [0, 0, 1, 0])).map
          (fun x => x * ((([0, 0, 1, 0] : List ℝ).length / 2 : ℕ) : ℝ)) := by
  have hlen : ([0, 0, 1, 0] : List ℝ).length = 2 * 2 ^ 1 := by norm_num
  have hv : ValidInput ([0, 0, 1, 0] : List ℝ).length :=
    validInput_of_pow 1 (le_refl 1) _ hlen
  have he2 : ([0, 0, 1, 0] : List ℝ).length / 2 = 2 ^ 1 := by norm_num
  rw [he2]
  -- the butterfly output is [1, 0, -1, 0]
  have hy : dlRun 1 (2 * 2 ^ 1) (2 * 2 ^ 1) 2 (bitrevSection (2 ^ 1) [0, 0, 1, 0]) =
      [1, 0, -1, 0] := by
    have h0 := fourier_inverse_dft 1 (le_refl 1) [0, 0, 1, 0] hlen 0 (by norm_num)
    have h1 := fourier_inverse_dft 1 (le_refl 1) [0, 0, 1, 0] hlen 1 (by norm_num)
    rw [show Finset.range (2 ^ 1) = Finset.range 2 by norm_num] at h0 h1
    rw [sum_range_two] at h0 h1
    rw [show (2 * Real.pi * ((0 * 0 : ℕ) : ℝ) / ((2 ^ 1 : ℕ) : ℝ)) = 0 by push_cast; ring,
      expI_zero, (cSample_cons4 0 0 1 0).1, (cSample_cons4 0 0 1 0).2] at h0
    rw [show (2 * Real.pi * ((0 * 1 : ℕ) : ℝ) / ((2 ^ 1 : ℕ) : ℝ)) = 0 by push_cast; ring,
      show (2 * Real.pi * ((1 * 1 : ℕ) : ℝ) / ((2 ^ 1 : ℕ) : ℝ)) = Real.pi by
        push_cast; ring,
      expI_zero, expI_pi, (cSample_cons4 0 0 1 0).1, (cSample_cons4 0 0 1 0).2] at h1
    refine list4_of_cSample
      (by rw [length_dlRun, length_bitrevSection]; norm_num) ?_ ?_
    · rw [h0]
      push_cast
      ring
    · rw [h1]
      push_cast
      ring
  -- the actual result is [2, 0, -1, 0]
  have hres : (FourierTransLL [0, 0, 1, 0] true).2 = [2, 0, -1, 0] := by
    rw [fourier_inverse_eq [0, 0, 1, 0] hv, he2, hy]
    have hn : (2 : ℕ) ^ 1 ≤ ([1, 0, -1, 0] : List ℝ).length := by norm_num
    refine list4_of_val (by rw [length_scaleLoop]; rfl) ?_ ?_ ?_ ?_ <;>
      rw [val_scaleLoop _ _ hn]
    · rw [if_pos (by norm_num)]
      show (1 : ℝ) * ((2 ^ 1 : ℕ) : ℝ) = 2
      push_cast
      ring
    · rw [if_pos (by norm_num)]
      show (0 : ℝ) * ((2 ^ 1 : ℕ) : ℝ) = 0
      push_cast
      ring
    · rw [if_neg (by norm_num)]
      rfl
    · rw [if_neg (by norm_num)]
      rfl
  rw [hres, hy]
  intro h
  have h2 := congrArg (fun l => val l 2) h
  simp only at h2
  rw [val_map _ _ 2 (by norm_num)] at h2
  have hval : val ([2, 0, -1, 0] : List ℝ) 2 = -1 := rfl
  have hval2 : val ([1, 0, -1, 0] : List ℝ) 2 = -1 := rfl
  rw [hval, hval2] at h2
  have : ((2 ^ 1 : ℕ) : ℝ) = 2 := by push_cast; ring
  rw [this] at h2
  norm_num at h2

end GoslFun
